import Mathlib

/-!
Formal verification of the Klotho IaC engine core against its specification.

The development shallowly embeds the engine workflow (pkg/engine/engine.go),
the edge knowledge base (pkg/knowledge_base/edge_kb.go), the path-selection
subsystem (engine2 path_selection) and the earlier engine variant, and proves
or refutes the specification claims about them.
-/

namespace Klotho

/-! ## Engine.Run and Engine.SolveGraph (pkg/engine/engine.go) -/

/-- Outcome of solving one SolveContext: the resource graph returned by
SolveGraph (the Go function always returns a graph) together with its
optional error. -/
structure SolveOutcome (G E : Type) where
  graph : G
  errOpt : Option E
deriving Repr, DecidableEq

/-- Embeds the SolveContext loop of Engine.Run (engine.go lines 129-141):
for each context the engine calls SolveGraph; on error it only writes a debug
log; `e.Context.Solution` is assigned the returned graph whenever it is still
nil.  The accumulator `sol` is `e.Context.Solution`. -/
def runContextsLoop {G E : Type} (sol : Option G) : List (SolveOutcome G E) → Option G
  | [] => sol
  | o :: rest =>
    runContextsLoop (match sol with | none => some o.graph | some s => some s) rest

/-- Embeds the tail of Engine.Run: iterate over the SolveContexts and finally
return `(e.Context.Solution, nil)` (engine.go line 141 returns a nil error). -/
def runContexts {G E : Type} (outcomes : List (SolveOutcome G E)) : Option G × Option E :=
  (runContextsLoop none outcomes, none)

/-- Behaviour described by the specification for Engine.Run: return the graph
of the first SolveContext whose solve succeeds; if none succeeds, return the
first graph together with the recorded diagnostics as an error.  This
definition follows the claim text and exists only for comparison with
`runContexts`. -/
def runContextsClaimed {G E : Type} (mkDiag : List E → E)
    (outcomes : List (SolveOutcome G E)) : Option G × Option E :=
  match outcomes.find? (fun o => o.errOpt.isNone) with
  | some o => (some o.graph, none)
  | none =>
    (outcomes.head?.map (fun o => o.graph),
     some (mkDiag (outcomes.filterMap (fun o => o.errOpt))))

/-- Recorded outcome of one iteration of SolveGraph.  Each field abstracts the
result of one phase of the iteration body of engine.go lines 239-298, in the
order the phases run on the evolving graph:
`expandErr` is the error of `e.expandEdges(graph)`; `configErrs` are the
errors of the `ConfigureEdge` calls (the configure loop runs only when
expansion succeeded); `opErr` is the error of `e.MakeResourcesOperational`;
`nonOperational` are the `resource ... is not operational` errors; and
`unsatisfied` are the constraints reported by `e.ValidateConstraints`. -/
structure IterOutcome (E : Type) where
  expandErr : Option E
  configErrs : List E
  opErr : Option E
  nonOperational : List E
  unsatisfied : List String
deriving Repr, DecidableEq

/-- Errors recorded in `errorMap[i]` by the expansion/configuration phase:
a failed expansion records exactly its error and skips the configure loop,
otherwise the configure errors are recorded (engine.go lines 240-257). -/
def phase1Errs {E : Type} (o : IterOutcome E) : List E :=
  match o.expandErr with
  | some e => [e]
  | none => o.configErrs

/-- Full content of `errorMap[i]` at the moment iteration `i` of SolveGraph
ends, given whether `i` is the final iteration.  When MakeResourcesOperational
fails, its error is appended and the iteration continues; when it succeeds and
the iteration is the final one with unsatisfied constraints, the function
returns before appending the non-operational errors. -/
def errorMapAt {E : Type} (o : IterOutcome E) (isLast : Bool) : List E :=
  match o.opErr with
  | some e => phase1Errs o ++ [e]
  | none =>
    if isLast ∧ o.unsatisfied ≠ [] then phase1Errs o
    else phase1Errs o ++ o.nonOperational

/-- Result of SolveGraph, remembering how many iterations ran:
`success` is the `(graph, nil)` return, `unsatError` the
`unsatisfied constraints` error return, `errorsJoined` the
`found the following errors during graph solving` return built from the final
iteration's `errorMap` entry. -/
inductive SolveResult (E : Type) where
  | success (iters : Nat)
  | unsatError (iters : Nat) (cs : List String)
  | errorsJoined (iters : Nat) (es : List E)
deriving Repr, DecidableEq

/-- Number of iterations the loop performed before returning. -/
def SolveResult.iters {E : Type} : SolveResult E → Nat
  | .success i => i
  | .unsatError i _ => i
  | .errorsJoined i _ => i

/-- Embeds the iteration loop of Engine.SolveGraph (engine.go lines 239-301).
`n` is NUM_LOOPS, `i` the loop index, and `fuel` the remaining iterations
(`n - i`); when the fuel runs out the loop exits and the function returns
`(graph, nil)` (line 301).  Inside an iteration: a failed
MakeResourcesOperational appends its error and continues; unsatisfied
constraints on the final iteration return the unsatisfied-constraints error;
an empty `errorMap[i]` breaks with success; errors on the final iteration
return them joined; otherwise the loop continues. -/
def solveLoop {E : Type} (n : Nat) (o : Nat → IterOutcome E) : Nat → Nat → SolveResult E
  | i, 0 => .success i
  | i, fuel + 1 =>
    match (o i).opErr with
    | some _ => solveLoop n o (i + 1) fuel
    | none =>
      if ¬ (o i).unsatisfied.isEmpty ∧ i = n - 1 then
        .unsatError (i + 1) (o i).unsatisfied
      else if (phase1Errs (o i) ++ (o i).nonOperational).isEmpty then
        .success (i + 1)
      else if i = n - 1 then
        .errorsJoined (i + 1) (phase1Errs (o i) ++ (o i).nonOperational)
      else
        solveLoop n o (i + 1) fuel

/-- Embeds Engine.SolveGraph: `NUM_LOOPS := 5` (engine.go line 235) and the
loop starting at `i = 0`. -/
def solveGraph {E : Type} (o : Nat → IterOutcome E) : SolveResult E :=
  solveLoop 5 o 0 5

/-- Iteration `j` neither breaks with success nor returns: either
MakeResourcesOperational failed (the loop continues via `continue`), or some
error was recorded so the `break` is not taken.  Valid description for the
non-final iterations `j < n - 1`. -/
def continuesAt {E : Type} (o : Nat → IterOutcome E) (j : Nat) : Prop :=
  (o j).opErr.isSome ∨ phase1Errs (o j) ++ (o j).nonOperational ≠ []

instance {E : Type} [DecidableEq E] (o : Nat → IterOutcome E) (j : Nat) :
    Decidable (continuesAt o j) := by
  unfold continuesAt; infer_instance

/-- The loop reaches iteration `i`: every earlier iteration continued. -/
def reaches {E : Type} (o : Nat → IterOutcome E) (i : Nat) : Prop :=
  ∀ j, j < i → continuesAt o j

instance {E : Type} [DecidableEq E] (o : Nat → IterOutcome E) (i : Nat) :
    Decidable (reaches o i) :=
  Nat.decidableBallLT i (fun j _ => continuesAt o j)

/-- Embeds the hard-coded iteration bound of SolveGraph: `NUM_LOOPS := 5`
(engine.go line 235).  The function receives the process environment (numeric
variables already parsed) only so that the claim about PLAN_ITERATIONS can be
stated; the source consults no environment variable here. -/
def numLoops (_env : String → Option Nat) : Nat := 5

/-- SolveGraph as a function of the process environment. -/
def solveGraphEnv {E : Type} (env : String → Option Nat)
    (o : Nat → IterOutcome E) : SolveResult E :=
  solveLoop (numLoops env) o 0 (numLoops env)

/-- Iteration bound described by the specification: the PLAN_ITERATIONS
environment variable, when set, overrides the default of 5.  This definition
follows the claim text and exists only for comparison. -/
def planIterationsBound (env : String → Option Nat) : Nat :=
  (env "PLAN_ITERATIONS").getD 5

theorem runContextsLoop_some {G E : Type} (s : G) :
    ∀ l : List (SolveOutcome G E), runContextsLoop (some s) l = some s := by
  intro l
  induction l with
  | nil => rfl
  | cons o rest ih => simpa [runContextsLoop] using ih

/-- C1: the claim is false on the code.  With two SolveContexts where the
first solve fails and the second succeeds, Engine.Run returns the FIRST
context's graph (graph 1), not the graph of the first succeeding context
(graph 2) that the claim requires; and when every context fails, Run still
returns a nil error rather than the diagnostics the claim requires. -/
theorem claim_C1_counterexample :
    runContexts [SolveOutcome.mk 1 (some ()), SolveOutcome.mk 2 none]
      = (some 1, none)
    ∧ runContextsClaimed (fun _ => ()) [SolveOutcome.mk 1 (some ()), SolveOutcome.mk 2 none]
      = (some 2, none)
    ∧ runContexts [SolveOutcome.mk (1 : Nat) (some ())] = (some 1, none)
    ∧ runContextsClaimed (fun _ => ()) [SolveOutcome.mk (1 : Nat) (some ())]
      = (some 1, some ()) := by
  refine ⟨?_, ?_, ?_, ?_⟩ <;> rfl

/-- C1 (amended): Engine.Run solves every generated SolveContext in order,
but the graph it returns is always the first SolveContext's graph, whether or
not any solve succeeded, and the returned error is always nil; a failed solve
only produces a debug log. -/
theorem claim_C1 {G E : Type} (outcomes : List (SolveOutcome G E)) :
    runContexts outcomes = (outcomes.head?.map (fun o => o.graph), none) := by
  cases outcomes with
  | nil => rfl
  | cons o rest =>
    simp only [runContexts, runContextsLoop, List.head?]
    rw [runContextsLoop_some]
    rfl

theorem solveLoop_succ {E : Type} (n : Nat) (o : Nat → IterOutcome E)
    (i fuel : Nat) :
    solveLoop n o i (fuel + 1) =
      match (o i).opErr with
      | some _ => solveLoop n o (i + 1) fuel
      | none =>
        if ¬ (o i).unsatisfied.isEmpty ∧ i = n - 1 then
          .unsatError (i + 1) (o i).unsatisfied
        else if (phase1Errs (o i) ++ (o i).nonOperational).isEmpty then
          .success (i + 1)
        else if i = n - 1 then
          .errorsJoined (i + 1) (phase1Errs (o i) ++ (o i).nonOperational)
        else
          solveLoop n o (i + 1) fuel := rfl

theorem solveLoop_iters_le {E : Type} (n : Nat) (o : Nat → IterOutcome E) :
    ∀ fuel i, (solveLoop n o i fuel).iters ≤ i + fuel := by
  intro fuel
  induction fuel with
  | zero => intro i; simp [solveLoop, SolveResult.iters]
  | succ fuel ih =>
    intro i
    rw [solveLoop_succ]
    cases (o i).opErr with
    | some e => exact (ih (i + 1)).trans (by omega)
    | none =>
      by_cases h1 : ¬ (o i).unsatisfied.isEmpty ∧ i = n - 1
      · simp only [if_pos h1, SolveResult.iters]; omega
      · rw [if_neg h1]
        by_cases h2 : (phase1Errs (o i) ++ (o i).nonOperational).isEmpty
        · simp only [if_pos h2, SolveResult.iters]; omega
        · rw [if_neg h2]
          by_cases h3 : i = n - 1
          · simp only [if_pos h3, SolveResult.iters]; omega
          · rw [if_neg h3]
            exact (ih (i + 1)).trans (by omega)

theorem solveLoop_step_continue {E : Type} (n : Nat) (o : Nat → IterOutcome E)
    (i fuel : Nat) (h : continuesAt o i) (hi : i ≠ n - 1) :
    solveLoop n o i (fuel + 1) = solveLoop n o (i + 1) fuel := by
  rw [solveLoop_succ]
  cases hop : (o i).opErr with
  | some e => rfl
  | none =>
    rcases h with h | h
    · rw [hop] at h; simp at h
    · have hne : ¬ (phase1Errs (o i) ++ (o i).nonOperational).isEmpty := by
        simpa [List.isEmpty_iff] using h
      have h1 : ¬ (¬ (o i).unsatisfied.isEmpty ∧ i = n - 1) := by
        intro hc; exact hi hc.2
      rw [if_neg h1, if_neg hne, if_neg hi]

theorem solveGraph_reaches {E : Type} (o : Nat → IterOutcome E) :
    ∀ i, i ≤ 4 → reaches o i → solveGraph o = solveLoop 5 o i ((4 - i) + 1) := by
  intro i
  induction i with
  | zero => intro _ _; rfl
  | succ i ih =>
    intro hle hreach
    have hi4 : i ≤ 4 := by omega
    have hr : reaches o i := fun j hj => hreach j (by omega)
    have hc : continuesAt o i := hreach i (by omega)
    rw [ih hi4 hr]
    rw [solveLoop_step_continue 5 o i _ hc (by omega)]
    have hfuel : 4 - i = (4 - (i + 1)) + 1 := by omega
    rw [hfuel]

/-- C2: the claim is false on the code.  When MakeResourcesOperational fails
in every iteration, the final iteration records its error in the error map,
yet the `continue` in the loop body skips the final-iteration error return and
the loop falls through to `return graph, nil`: SolveGraph reports success even
though errors remain after the final iteration. -/
theorem claim_C2_counterexample :
    solveGraph (fun _ => IterOutcome.mk (E := Unit) none [] (some ()) [] [])
      = SolveResult.success 5
    ∧ errorMapAt (IterOutcome.mk (E := Unit) none [] (some ()) [] []) true ≠ [] := by
  exact ⟨rfl, by decide⟩

/-- C2 (amended): SolveGraph runs at most 5 iterations.  An iteration whose
error map entry is empty ends the loop with success, unless it is the final
iteration and constraints are unsatisfied, in which case the
unsatisfied-constraints error is returned.  If the final iteration is reached
and MakeResourcesOperational succeeds there, unsatisfied constraints yield the
unsatisfied-constraints error, and otherwise remaining recorded errors yield
an error built only from the final iteration's error map entry (earlier
iterations' errors are discarded).  But if MakeResourcesOperational fails in
the final iteration, the call returns success despite the recorded errors. -/
theorem claim_C2 {E : Type} (o : Nat → IterOutcome E) :
    (solveGraph o).iters ≤ 5
    ∧ (∀ i, i ≤ 4 → reaches o i →
        errorMapAt (o i) (decide (i = 4)) = [] →
        ¬(i = 4 ∧ (o i).unsatisfied ≠ []) →
        solveGraph o = .success (i + 1))
    ∧ (reaches o 4 → (o 4).opErr = none → (o 4).unsatisfied ≠ [] →
        solveGraph o = .unsatError 5 ((o 4).unsatisfied))
    ∧ (reaches o 4 → (o 4).opErr = none → (o 4).unsatisfied = [] →
        phase1Errs (o 4) ++ (o 4).nonOperational ≠ [] →
        solveGraph o = .errorsJoined 5 (errorMapAt (o 4) true))
    ∧ (reaches o 4 → (o 4).opErr.isSome → solveGraph o = .success 5) := by
  refine ⟨?_, ?_, ?_, ?_, ?_⟩
  · simpa using solveLoop_iters_le 5 o 5 0
  · intro i hi hreach hmap hnot
    rw [solveGraph_reaches o i hi hreach, solveLoop_succ]
    cases hop : (o i).opErr with
    | some e => rw [errorMapAt, hop] at hmap; simp at hmap
    | none =>
      rw [errorMapAt, hop] at hmap
      by_cases h4 : i = 4
      · subst h4
        have hun : (o 4).unsatisfied = [] := by
          by_contra hne
          exact hnot ⟨rfl, hne⟩
        have hmap2 : phase1Errs (o 4) ++ (o 4).nonOperational = [] := by
          rw [if_neg (by simp [hun])] at hmap; exact hmap
        rw [if_neg (by simp [hun]), if_pos (by simp [hmap2])]
      · have hmap2 : phase1Errs (o i) ++ (o i).nonOperational = [] := by
          rw [if_neg (by simp [h4])] at hmap; exact hmap
        have h1 : ¬ (¬ (o i).unsatisfied.isEmpty ∧ i = 5 - 1) := by
          intro hc
          have := hc.2
          omega
        rw [if_neg h1, if_pos (by simp [hmap2])]
  · intro hreach hop hun
    rw [solveGraph_reaches o 4 (by omega) hreach, solveLoop_succ, hop]
    have h1 : ¬ (o 4).unsatisfied.isEmpty ∧ (4 : Nat) = 5 - 1 :=
      ⟨by simpa [List.isEmpty_iff] using hun, by omega⟩
    rw [if_pos h1]
  · intro hreach hop hun hne
    rw [solveGraph_reaches o 4 (by omega) hreach, solveLoop_succ, hop]
    have h1 : ¬ (¬ (o 4).unsatisfied.isEmpty ∧ (4 : Nat) = 5 - 1) := by
      intro hc
      rw [List.isEmpty_iff] at hc
      exact hc.1 hun
    have h2 : ¬ (phase1Errs (o 4) ++ (o 4).nonOperational).isEmpty := by
      simpa [List.isEmpty_iff] using hne
    rw [if_neg h1, if_neg h2, if_pos rfl, errorMapAt, hop]
    simp [hun]
  · intro hreach hop
    rw [solveGraph_reaches o 4 (by omega) hreach, solveLoop_succ]
    cases hsome : (o 4).opErr with
    | some e => rfl
    | none => rw [hsome] at hop; simp at hop

/-- C2 witness: instantiating the amended theorem at the outcome sequence with
no errors at all shows the very first iteration succeeds. -/
theorem claim_C2_witness :
    solveGraph (fun _ => IterOutcome.mk (E := Unit) none [] none [] [])
      = SolveResult.success 1 :=
  (claim_C2 (fun _ => IterOutcome.mk (E := Unit) none [] none [] [])).2.1
    0 (by omega) (fun j hj => absurd hj (by omega)) (by decide) (by decide)

/-- C8: the claim is false on the code.  With PLAN_ITERATIONS set to "1" and a
run whose first two iterations record errors, SolveGraph still performs three
iterations: the iteration bound is the literal 5 and no environment variable
affects it. -/
theorem claim_C8_counterexample :
    solveGraphEnv (E := Unit)
        (fun k => if k = "PLAN_ITERATIONS" then some 1 else none)
        (fun j => if j < 2 then IterOutcome.mk (some ()) [] none [] []
                  else IterOutcome.mk none [] none [] [])
      = SolveResult.success 3
    ∧ planIterationsBound (fun k => if k = "PLAN_ITERATIONS" then some 1 else none) = 1
    ∧ ¬ (3 ≤ 1) := by
  refine ⟨rfl, by simp [planIterationsBound], by omega⟩

/-- C8 (amended): the iteration bound of SolveGraph is the constant 5; the
result is identical under every environment (in particular PLAN_ITERATIONS has
no effect), and at most 5 iterations ever run. -/
theorem claim_C8 {E : Type} (env1 env2 : String → Option Nat)
    (o : Nat → IterOutcome E) :
    solveGraphEnv env1 o = solveGraphEnv env2 o
    ∧ solveGraphEnv env1 o = solveGraph o
    ∧ (solveGraphEnv env1 o).iters ≤ 5 := by
  refine ⟨rfl, rfl, ?_⟩
  simpa using solveLoop_iters_le 5 o 5 0

/-! ## Knowledge base (pkg/knowledge_base/edge_kb.go) -/

/-- Go reflect.Type of a resource struct, identified by name.  The knowledge
base and its path search operate on these types. -/
abbrev RType := String

/-- Embeds knowledgebase.Edge: a valid link between two resource types. -/
structure Edge where
  Source : RType
  Destination : RType
deriving Repr, DecidableEq

/-- Embeds the fields of knowledgebase.EdgeDetails consulted during path
finding; the expansion and configuration functions are not needed here. -/
structure EdgeDetails where
  ReverseDirection : Bool
  ValidDestinations : List RType
deriving Repr, DecidableEq

/-- Embeds EdgeKB: the knowledge base map from edges to their details,
represented as an association list. -/
abbrev EdgeKB := List (Edge × EdgeDetails)

/-- Embeds EdgeKB.GetEdgeDetails (edge_kb.go line 86). -/
def getEdgeDetails (kb : EdgeKB) (source target : RType) : Option EdgeDetails :=
  (kb.find? (fun p => p.1 == Edge.mk source target)).map (fun p => p.2)

/-- Details of an edge with the Go zero value when the edge is absent,
matching the discarded lookup flag in `det, _ := kb.GetEdgeDetails(...)`. -/
def edgeDetailsOrZero (kb : EdgeKB) (e : Edge) : EdgeDetails :=
  (getEdgeDetails kb e.Source e.Destination).getD (EdgeDetails.mk false [])

/-- Embeds EdgeKB.GetEdgesWithSource (edge_kb.go line 92). -/
def getEdgesWithSource (kb : EdgeKB) (source : RType) : List Edge :=
  (kb.filter (fun p => p.1.Source == source)).map (fun p => p.1)

/-- Embeds EdgeKB.GetEdgesWithTarget (edge_kb.go line 103). -/
def getEdgesWithTarget (kb : EdgeKB) (target : RType) : List Edge :=
  (kb.filter (fun p => p.1.Destination == target)).map (fun p => p.1)

/-- Embeds EdgeKB.isValidForPath (edge_kb.go line 171): the destination of the
path generation must be among the edge's ValidDestinations; a missing edge has
the zero-value details and so an empty list. -/
def isValidForPath (kb : EdgeKB) (e : Edge) (dest : RType) : Bool :=
  (edgeDetailsOrZero kb e).ValidDestinations.contains dest

/-- Embeds the recursion of EdgeKB.findPaths (edge_kb.go lines 130-165).  The
mutable visited map with its delete-on-return is rendered by passing the
extended visited list to the recursive calls; `fuel` bounds the recursion
depth (the Go function recurs without an explicit bound; the stability theorem
shows any fuel beyond the number of knowledge-base types gives the same
result, which is the formal content of its termination). -/
def findPathsF (kb : EdgeKB) : Nat → RType → RType → List Edge → List RType → List (List Edge)
  | 0, _, _, _, _ => []
  | fuel + 1, source, dest, stack, visited =>
    let visited1 := source :: visited
    if source = dest then
      let stack1 :=
        if stack.isEmpty then
          match getEdgeDetails kb source dest with
          | some _ => [Edge.mk source dest]
          | none => []
        else stack
      if stack1.isEmpty then [] else [stack1]
    else
      (getEdgesWithSource kb source).flatMap (fun e =>
        if (edgeDetailsOrZero kb e).ReverseDirection = false ∧ e.Source = source
            ∧ e.Destination ∉ visited1 ∧ isValidForPath kb e dest then
          findPathsF kb fuel e.Destination dest (stack ++ [e]) visited1
        else []) ++
      (getEdgesWithTarget kb source).flatMap (fun e =>
        if (edgeDetailsOrZero kb e).ReverseDirection = true ∧ e.Destination = source
            ∧ e.Source ∉ visited1 ∧ isValidForPath kb e dest then
          findPathsF kb fuel e.Source dest (stack ++ [e]) visited1
        else [])

/-- All resource types mentioned by the knowledge base. -/
def kbTypes (kb : EdgeKB) : List RType :=
  (kb.map (fun p => p.1.Source) ++ kb.map (fun p => p.1.Destination)).dedup

/-- Number of knowledge-base types not yet visited; the measure that bounds
the recursion depth of findPaths. -/
def remainingTypes (kb : EdgeKB) (visited : List RType) : Nat :=
  ((kbTypes kb).filter (fun t => t ∉ visited)).length

/-- Embeds EdgeKB.FindPaths (edge_kb.go line 120): run the recursion with an
empty stack and visited set; the fuel is adequate by the stability theorem. -/
def FindPaths (kb : EdgeKB) (source dest : RType) : List (List Edge) :=
  findPathsF kb (remainingTypes kb [] + 1) source dest [] []

theorem remainingTypes_cons_lt (kb : EdgeKB) (visited : List RType) (t : RType)
    (ht : t ∈ kbTypes kb) (hnv : t ∉ visited) :
    remainingTypes kb (t :: visited) < remainingTypes kb visited := by
  unfold remainingTypes
  have hsub : List.Sublist ((kbTypes kb).filter (fun x => decide (x ∉ t :: visited)))
      ((kbTypes kb).filter (fun x => decide (x ∉ visited))) := by
    apply List.monotone_filter_right
    intro x hx
    simp only [decide_eq_true_eq, List.mem_cons, not_or] at hx ⊢
    exact hx.2
  rcases Nat.lt_or_ge ((kbTypes kb).filter (fun x => decide (x ∉ t :: visited))).length
      ((kbTypes kb).filter (fun x => decide (x ∉ visited))).length with h | h
  · exact h
  · exfalso
    have heq : (kbTypes kb).filter (fun x => decide (x ∉ t :: visited))
        = (kbTypes kb).filter (fun x => decide (x ∉ visited)) :=
      hsub.eq_of_length_le h
    have hmem : t ∈ (kbTypes kb).filter (fun x => decide (x ∉ visited)) := by
      simp [List.mem_filter, ht, hnv]
    rw [← heq] at hmem
    simp [List.mem_filter] at hmem

theorem source_mem_kbTypes_of_src (kb : EdgeKB) (e : Edge)
    (he : e ∈ getEdgesWithSource kb e.Source) : e.Source ∈ kbTypes kb := by
  unfold getEdgesWithSource at he
  rcases List.mem_map.mp he with ⟨p, hp, hpe⟩
  have hmem := (List.mem_filter.mp hp).1
  unfold kbTypes
  rw [List.mem_dedup]
  refine List.mem_append.mpr (Or.inl ?_)
  exact List.mem_map.mpr ⟨p, hmem, by rw [hpe]⟩

theorem source_mem_kbTypes_of_tgt (kb : EdgeKB) (e : Edge)
    (he : e ∈ getEdgesWithTarget kb e.Destination) : e.Destination ∈ kbTypes kb := by
  unfold getEdgesWithTarget at he
  rcases List.mem_map.mp he with ⟨p, hp, hpe⟩
  have hmem := (List.mem_filter.mp hp).1
  unfold kbTypes
  rw [List.mem_dedup]
  refine List.mem_append.mpr (Or.inr ?_)
  exact List.mem_map.mpr ⟨p, hmem, by rw [hpe]⟩

theorem flatMap_congr_mem {α β : Type} {l : List α} {f g : α → List β}
    (h : ∀ a ∈ l, f a = g a) : l.flatMap f = l.flatMap g := by
  induction l with
  | nil => rfl
  | cons x xs ih =>
    simp only [List.flatMap_cons]
    rw [h x (List.mem_cons_self x xs), ih (fun a ha => h a (List.mem_cons_of_mem x ha))]

theorem findPathsF_stable (kb : EdgeKB) :
    ∀ fuel1 fuel2 source dest stack visited, source ∉ visited →
      remainingTypes kb visited < fuel1 → remainingTypes kb visited < fuel2 →
      findPathsF kb fuel1 source dest stack visited
        = findPathsF kb fuel2 source dest stack visited := by
  intro fuel1
  induction fuel1 with
  | zero => intro fuel2 source dest stack visited _ h1 _; omega
  | succ n ih =>
    intro fuel2 source dest stack visited hnv h1 h2
    match fuel2 with
    | 0 => omega
    | m + 1 =>
      show findPathsF kb (n + 1) source dest stack visited
          = findPathsF kb (m + 1) source dest stack visited
      unfold findPathsF
      by_cases hsd : source = dest
      · rw [if_pos hsd, if_pos hsd]
      · rw [if_neg hsd, if_neg hsd]
        have hfwd :
            ∀ e ∈ getEdgesWithSource kb source,
              (if (edgeDetailsOrZero kb e).ReverseDirection = false ∧ e.Source = source
                  ∧ e.Destination ∉ source :: visited ∧ isValidForPath kb e dest then
                findPathsF kb n e.Destination dest (stack ++ [e]) (source :: visited)
              else []) =
              (if (edgeDetailsOrZero kb e).ReverseDirection = false ∧ e.Source = source
                  ∧ e.Destination ∉ source :: visited ∧ isValidForPath kb e dest then
                findPathsF kb m e.Destination dest (stack ++ [e]) (source :: visited)
              else []) := by
          intro e he
          by_cases hc : (edgeDetailsOrZero kb e).ReverseDirection = false ∧ e.Source = source
              ∧ e.Destination ∉ source :: visited ∧ isValidForPath kb e dest
          · rw [if_pos hc, if_pos hc]
            have hsrc : e.Source = source := hc.2.1
            have hmem : source ∈ kbTypes kb := by
              rw [← hsrc]
              exact source_mem_kbTypes_of_src kb e (by rw [hsrc]; exact he)
            have hlt := remainingTypes_cons_lt kb visited source hmem hnv
            exact ih m e.Destination dest (stack ++ [e]) (source :: visited)
              hc.2.2.1 (by omega) (by omega)
          · rw [if_neg hc, if_neg hc]
        have hrev :
            ∀ e ∈ getEdgesWithTarget kb source,
              (if (edgeDetailsOrZero kb e).ReverseDirection = true ∧ e.Destination = source
                  ∧ e.Source ∉ source :: visited ∧ isValidForPath kb e dest then
                findPathsF kb n e.Source dest (stack ++ [e]) (source :: visited)
              else []) =
              (if (edgeDetailsOrZero kb e).ReverseDirection = true ∧ e.Destination = source
                  ∧ e.Source ∉ source :: visited ∧ isValidForPath kb e dest then
                findPathsF kb m e.Source dest (stack ++ [e]) (source :: visited)
              else []) := by
          intro e he
          by_cases hc : (edgeDetailsOrZero kb e).ReverseDirection = true ∧ e.Destination = source
              ∧ e.Source ∉ source :: visited ∧ isValidForPath kb e dest
          · rw [if_pos hc, if_pos hc]
            have hdst : e.Destination = source := hc.2.1
            have hmem : source ∈ kbTypes kb := by
              rw [← hdst]
              exact source_mem_kbTypes_of_tgt kb e (by rw [hdst]; exact he)
            have hlt := remainingTypes_cons_lt kb visited source hmem hnv
            exact ih m e.Source dest (stack ++ [e]) (source :: visited)
              hc.2.2.1 (by omega) (by omega)
          · rw [if_neg hc, if_neg hc]
        rw [flatMap_congr_mem hfwd, flatMap_congr_mem hrev]

/-- Node reached from `c` by traversing edge `e`: the knowledge-base search
walks an edge forward from its Source and backward (for reverse-direction
edges) from its Destination. -/
def nextNode (c : RType) (e : Edge) : RType :=
  if e.Source = c then e.Destination else e.Source

/-- Nodes visited after the start node when traversing a path edge list. -/
def nodeSeqAux (c : RType) : List Edge → List RType
  | [] => []
  | e :: es => nextNode c e :: nodeSeqAux (nextNode c e) es

/-- Full node sequence of a path starting at `start`. -/
def nodeSeq (start : RType) (p : List Edge) : List RType :=
  start :: nodeSeqAux start p

/-- Final node of a path traversal. -/
def endNode (c : RType) (p : List Edge) : RType :=
  p.foldl nextNode c

theorem endNode_cons (c : RType) (e : Edge) (es : List Edge) :
    endNode c (e :: es) = endNode (nextNode c e) es := rfl

theorem nodeSeq_getLastD (p : List Edge) :
    ∀ (c d : RType), (nodeSeq c p).getLastD d = endNode c p := by
  induction p with
  | nil => intro c d; rfl
  | cons e es ih =>
    intro c d
    show (c :: nodeSeq (nextNode c e) es).getLastD d = endNode c (e :: es)
    rw [List.getLastD_cons, ih (nextNode c e) c, endNode_cons]

theorem endNode_of_nodeSeq_eq {p : List Edge} {c s : RType} {pre : List RType}
    (h : nodeSeq c p = pre ++ [s]) : endNode c p = s := by
  have := nodeSeq_getLastD p c c
  rw [h] at this
  simpa [List.getLastD_concat] using this.symm

theorem nodeSeq_append (s0 : RType) (xs : List Edge) (e : Edge) :
    nodeSeq s0 (xs ++ [e]) = nodeSeq s0 xs ++ [nextNode (endNode s0 xs) e] := by
  unfold nodeSeq
  simp only [List.cons_append, List.cons.injEq, true_and]
  induction xs generalizing s0 with
  | nil => rfl
  | cons x xs ih =>
    show nextNode s0 x :: nodeSeqAux (nextNode s0 x) (xs ++ [e]) = _
    rw [ih (nextNode s0 x)]
    simp [nodeSeqAux, endNode_cons]

theorem findPathsF_ne_nil (kb : EdgeKB) :
    ∀ fuel source dest stack visited,
      ∀ p ∈ findPathsF kb fuel source dest stack visited, p ≠ [] := by
  intro fuel
  induction fuel with
  | zero => intro source dest stack visited p hp; simp [findPathsF] at hp
  | succ n ih =>
    intro source dest stack visited p hp
    unfold findPathsF at hp
    by_cases hsd : source = dest
    · rw [if_pos hsd] at hp
      by_cases hempty :
          (if stack.isEmpty then
            match getEdgeDetails kb source dest with
            | some _ => [Edge.mk source dest]
            | none => []
          else stack).isEmpty
      · rw [if_pos hempty] at hp
        simp at hp
      · rw [if_neg hempty] at hp
        rcases List.mem_singleton.mp hp with rfl
        simpa [List.isEmpty_iff] using hempty
    · rw [if_neg hsd] at hp
      rcases List.mem_append.mp hp with h | h <;>
      · rcases List.mem_flatMap.mp h with ⟨e, he, hpe⟩
        split at hpe
        · exact ih _ _ _ _ p hpe
        · simp at hpe

theorem findPathsF_nodeSeq_nodup (kb : EdgeKB) :
    ∀ fuel source dest stack visited s0,
      nodeSeq s0 stack = visited.reverse ++ [source] →
      (source :: visited).Nodup →
      (stack = [] → source ≠ dest) →
      ∀ p ∈ findPathsF kb fuel source dest stack visited, (nodeSeq s0 p).Nodup := by
  intro fuel
  induction fuel with
  | zero => intro source dest stack visited s0 _ _ _ p hp; simp [findPathsF] at hp
  | succ n ih =>
    intro source dest stack visited s0 hstk hnd hne p hp
    unfold findPathsF at hp
    by_cases hsd : source = dest
    · rw [if_pos hsd] at hp
      have hstack : ¬ stack.isEmpty := by
        rw [List.isEmpty_iff]
        intro hnil
        exact hne hnil hsd
      rw [if_neg (by rwa [if_neg hstack])] at hp
      rw [if_neg hstack] at hp
      rcases List.mem_singleton.mp hp with rfl
      rw [hstk]
      have hperm : List.Perm (visited.reverse ++ [source]) (source :: visited) :=
        ((List.reverse_perm visited).append_right [source]).trans
          (List.perm_append_singleton source visited)
      exact hperm.nodup_iff.mpr hnd
    · rw [if_neg hsd] at hp
      rcases List.mem_append.mp hp with h | h
      · rcases List.mem_flatMap.mp h with ⟨e, he, hpe⟩
        by_cases hc : (edgeDetailsOrZero kb e).ReverseDirection = false ∧ e.Source = source
            ∧ e.Destination ∉ source :: visited ∧ isValidForPath kb e dest
        · rw [if_pos hc] at hpe
          have hnext : nextNode (endNode s0 stack) e = e.Destination := by
            rw [endNode_of_nodeSeq_eq hstk, nextNode, if_pos hc.2.1]
          refine ih e.Destination dest (stack ++ [e]) (source :: visited) s0 ?_ ?_ ?_ p hpe
          · rw [nodeSeq_append, hnext, hstk, List.reverse_cons]
          · exact List.nodup_cons.mpr ⟨hc.2.2.1, hnd⟩
          · intro habs; simp at habs
        · rw [if_neg hc] at hpe
          simp at hpe
      · rcases List.mem_flatMap.mp h with ⟨e, he, hpe⟩
        by_cases hc : (edgeDetailsOrZero kb e).ReverseDirection = true ∧ e.Destination = source
            ∧ e.Source ∉ source :: visited ∧ isValidForPath kb e dest
        · rw [if_pos hc] at hpe
          have hsne : e.Source ≠ source := by
            intro habs
            exact hc.2.2.1 (habs ▸ List.mem_cons_self _ _)
          have hnext : nextNode (endNode s0 stack) e = e.Source := by
            rw [endNode_of_nodeSeq_eq hstk, nextNode, if_neg hsne]
          refine ih e.Source dest (stack ++ [e]) (source :: visited) s0 ?_ ?_ ?_ p hpe
          · rw [nodeSeq_append, hnext, hstk, List.reverse_cons]
          · exact List.nodup_cons.mpr ⟨hc.2.2.1, hnd⟩
          · intro habs; simp at habs
        · rw [if_neg hc] at hpe
          simp at hpe

/-- C10: the claim is false on the code.  For a knowledge base containing a
self-edge (A, A), FindPaths called with source = dest = A returns the
self-loop path, whose node sequence visits the type A twice: not every
returned path is simple. -/
theorem claim_C10_counterexample :
    FindPaths [(Edge.mk "A" "A", EdgeDetails.mk false [])] "A" "A"
      = [[Edge.mk "A" "A"]]
    ∧ ¬ (nodeSeq "A" [Edge.mk "A" "A"]).Nodup := by
  constructor
  · rfl
  · decide

/-- C10 (amended): FindPaths terminates: any fuel beyond the number of
knowledge-base types yields the same result, so the recursion depth is
bounded by the number of types.  Every returned path with source ≠ dest is
simple: its node sequence visits no resource type twice.  When source = dest,
the only path ever returned is the single self-loop edge (whose node
sequence repeats the type). -/
theorem claim_C10 (kb : EdgeKB) (source dest : RType) :
    (∀ fuel, remainingTypes kb [] < fuel →
      findPathsF kb fuel source dest [] [] = FindPaths kb source dest)
    ∧ (source ≠ dest →
        ∀ p ∈ FindPaths kb source dest, (nodeSeq source p).Nodup)
    ∧ (∀ p ∈ FindPaths kb source source, p = [Edge.mk source source]) := by
  refine ⟨?_, ?_, ?_⟩
  · intro fuel hfuel
    exact findPathsF_stable kb fuel (remainingTypes kb [] + 1) source dest [] []
      (by simp) hfuel (by omega)
  · intro hsd p hp
    exact findPathsF_nodeSeq_nodup kb _ source dest [] [] source rfl
      (by simp) (fun _ => hsd) p hp
  · intro p hp
    unfold FindPaths findPathsF at hp
    rw [if_pos rfl] at hp
    cases hdet : getEdgeDetails kb source source with
    | some d =>
      rw [hdet] at hp
      simp only [List.isEmpty_nil, if_true] at hp
      rcases List.mem_singleton.mp hp with rfl
      rfl
    | none =>
      rw [hdet] at hp
      simp at hp

/-- C10 witness: for the one-edge knowledge base A -> B the unique returned
path A-B is simple, by the amended theorem. -/
theorem claim_C10_witness :
    (nodeSeq "A" [Edge.mk "A" "B"]).Nodup :=
  (claim_C10 [(Edge.mk "A" "B", EdgeDetails.mk false ["B"])] "A" "B").2.1
    (by decide) [Edge.mk "A" "B"] (by decide)

/-! ## Resources, edge data and edge constraints (engine v1 model) -/

/-- Resource identity (core.ResourceId): provider, type, namespace, name.
The Go field names Provider/Type/Namespace/Name collide with Lean keywords
and are rendered with an r-prefix. -/
structure ResourceId where
  provider : String
  rtype : String
  rnamespace : String
  rname : String
deriving Repr, DecidableEq

/-- A core.Resource value, as far as the engine claims consult it: its Go
dynamic type (what reflect.TypeOf observes) and its id. -/
structure Resource where
  rtype : RType
  id : ResourceId
deriving Repr, DecidableEq

/-- Embeds knowledgebase.EdgeConstraint (edge_kb.go lines 45-50). -/
structure EdgeConstraint where
  NodeMustExist : List Resource
  NodeMustNotExist : List Resource
deriving Repr, DecidableEq

/-- Embeds knowledgebase.EdgeData restricted to its Constraint field
(edge_kb.go lines 53-69); the app name, environment variables, routes and
source/destination references play no role in the claims below.  Go's nil
slices are rendered as empty lists (the engine only ever builds the lists by
starting from a singleton and appending). -/
structure EdgeData where
  Constraint : EdgeConstraint
deriving Repr, DecidableEq

/-- The Go zero value EdgeData\x7b\x7d. -/
def emptyEdgeData : EdgeData := EdgeData.mk (EdgeConstraint.mk [] [])

/-- Embeds the node-found scan of EdgeKB.ExpandEdges (edge_kb.go lines
214-221 and 229-236): some edge of the path has an endpoint type equal to the
dynamic type of some constraint resource. -/
def nodeMatchFound (path : List Edge) (rs : List Resource) : Bool :=
  path.any (fun e => rs.any (fun r => e.Source == r.rtype || e.Destination == r.rtype))

/-- Embeds the constraint filter of EdgeKB.ExpandEdges (edge_kb.go lines
210-242): a path is kept when the NodeMustExist list, if present, has a match
in the path, and the NodeMustNotExist list has none. -/
def validPathsFor (data : EdgeData) (paths : List (List Edge)) : List (List Edge) :=
  paths.filter (fun path =>
    (data.Constraint.NodeMustExist.isEmpty
        || nodeMatchFound path data.Constraint.NodeMustExist)
    && (data.Constraint.NodeMustNotExist.isEmpty
        || ! nodeMatchFound path data.Constraint.NodeMustNotExist))

/-- All node types occurring in a knowledge-base path (each edge contributes
its two endpoints). -/
def pathNodes (p : List Edge) : List RType :=
  p.flatMap (fun e => [e.Source, e.Destination])

/-- Errors recorded during edge expansion; each carries the dependency's
source and destination ids, which the Go error message names. -/
inductive ExpandErr where
  | noPaths (src dst : ResourceId)
  | multiplePaths (src dst : ResourceId)
deriving Repr, DecidableEq

/-- Embeds the shortest-valid-path loop of EdgeKB.ExpandEdges (edge_kb.go
lines 245-256): keep the first path, replace the kept path by a strictly
shorter one, and record a multiple-paths error whenever a path ties with the
currently kept one. -/
def selectLoop (src dst : ResourceId) (validPath : List Edge)
    (errs : List ExpandErr) : List (List Edge) → List Edge × List ExpandErr
  | [] => (validPath, errs)
  | path :: rest =>
    if validPath.isEmpty then selectLoop src dst path errs rest
    else if path.length < validPath.length then selectLoop src dst path errs rest
    else if path.length = validPath.length then
      selectLoop src dst validPath (errs ++ [ExpandErr.multiplePaths src dst]) rest
    else
      selectLoop src dst validPath errs rest

/-- Path component of the selection loop, separated out for reasoning. -/
def bestOf (cur : List Edge) : List (List Edge) → List Edge
  | [] => cur
  | path :: rest =>
    if cur.isEmpty then bestOf path rest
    else if path.length < cur.length then bestOf path rest
    else bestOf cur rest

/-- A dependency of the resource graph: its source and destination resources
and the optional edge data attached to the edge. -/
structure Dependency where
  Source : Resource
  Destination : Resource
  data : Option EdgeData
deriving Repr, DecidableEq

/-- Embeds the path-selection part of EdgeKB.ExpandEdges for one dependency
(edge_kb.go lines 192-260): read the edge data (absent data behaves as the
zero value), find all knowledge-base paths between the dependency's dynamic
types, filter them through the edge constraints, then run the shortest-path
loop; when nothing is selected a no-paths error naming the dependency is
recorded.  The materialization of the selected path (lines 262-324) mutates
the graph but does not affect selection and is not modelled. -/
def expandDepSelection (kb : EdgeKB) (dep : Dependency) :
    Option (List Edge) × List ExpandErr :=
  let edgeData := dep.data.getD emptyEdgeData
  let paths := FindPaths kb dep.Source.rtype dep.Destination.rtype
  let validPaths := validPathsFor edgeData paths
  let sel := selectLoop dep.Source.id dep.Destination.id [] [] validPaths
  if sel.1.isEmpty then
    (none, sel.2 ++ [ExpandErr.noPaths dep.Source.id dep.Destination.id])
  else (some sel.1, sel.2)

/-- Embeds the dependency loop of EdgeKB.ExpandEdges (edge_kb.go lines
188-328) restricted to path selection: each dependency of the graph is
processed in turn, its errors join the running multierr, and a failed
dependency never aborts the loop; the accumulated error list is what
merr.ErrOrNil reports at the end. -/
def expandEdgesSelect (kb : EdgeKB) :
    List Dependency → List (Dependency × Option (List Edge)) × List ExpandErr
  | [] => ([], [])
  | dep :: rest =>
    let r := expandDepSelection kb dep
    let rest1 := expandEdgesSelect kb rest
    ((dep, r.1) :: rest1.1, r.2 ++ rest1.2)

/-! ## Edge constraints in the engine (engine.go lines 404-443) -/

/-- Constraint operators of the edge-constraint scope. -/
inductive ConstraintOperator where
  | MustExist
  | MustNotExist
  | MustContain
  | MustNotContain
deriving Repr, DecidableEq

/-- Embeds constraints.EdgeConstraint: an operator, the target edge given by
its source and target ids, and the extra node id. -/
structure EdgeConstraintC where
  Operator : ConstraintOperator
  TargetSource : ResourceId
  TargetTarget : ResourceId
  Node : ResourceId
deriving Repr, DecidableEq

/-- Modelled from the spec: provider.CreateResourceFromId, which is not among
the sources, instantiates from the id's type the provider resource with that
id; only the dynamic type and the id of the result matter to the claims. -/
def createResourceFromId (id : ResourceId) : Resource :=
  Resource.mk (id.provider ++ ":" ++ id.rtype) id

/-- A dependency record of a construct or resource graph, keyed by source and
target id, carrying optional edge data. -/
structure DepEdge where
  src : ResourceId
  dst : ResourceId
  data : Option EdgeData
deriving Repr, DecidableEq

/-- Dependencies of the working-state construct graph. -/
abbrev ConstructGraphDeps := List DepEdge

/-- Embeds core.ConstructGraph.GetDependency: the dependency from `s` to `t`
if present. -/
def getDependency (ws : ConstructGraphDeps) (s t : ResourceId) : Option DepEdge :=
  ws.find? (fun e => e.src == s && e.dst == t)

/-- Modelled from the spec: the graph substrate's add-edge operation
(core.ConstructGraph.AddDependencyWithData is not among the sources);
re-adding an existing dependency updates its properties data, which is how
the engine persists the mutated edge data below. -/
def addDependencyWithData (ws : ConstructGraphDeps) (s t : ResourceId)
    (d : EdgeData) : ConstructGraphDeps :=
  if ws.any (fun e => e.src == s && e.dst == t) then
    ws.map (fun e => if e.src == s && e.dst == t then DepEdge.mk s t (some d) else e)
  else ws ++ [DepEdge.mk s t (some d)]

/-- Edge data carried by the target edge before the constraint is applied:
the Go code uses the zero value when the edge is missing or has nil data
(engine.go lines 411-434). -/
def oldEdgeData (ws : ConstructGraphDeps) (c : EdgeConstraintC) : EdgeData :=
  ((getDependency ws c.TargetSource c.TargetTarget).bind (fun e => e.data)).getD
    emptyEdgeData

/-- Embeds Engine.handleEdgeConstainConstraint (engine.go lines 404-443): the
constraint's node is instantiated, the target edge's existing data (or a
fresh value) gains the resource in the list selected by the operator, and the
dependency is re-added with the new data. -/
def handleEdgeConstainConstraint (ws : ConstructGraphDeps)
    (c : EdgeConstraintC) : ConstructGraphDeps :=
  let resource := createResourceFromId c.Node
  let data : EdgeData :=
    match getDependency ws c.TargetSource c.TargetTarget with
    | none =>
      if c.Operator = ConstraintOperator.MustContain then
        EdgeData.mk (EdgeConstraint.mk [resource] [])
      else if c.Operator = ConstraintOperator.MustNotContain then
        EdgeData.mk (EdgeConstraint.mk [] [resource])
      else emptyEdgeData
    | some dep =>
      let d0 := dep.data.getD emptyEdgeData
      if c.Operator = ConstraintOperator.MustContain then
        EdgeData.mk (EdgeConstraint.mk
          (d0.Constraint.NodeMustExist ++ [resource]) d0.Constraint.NodeMustNotExist)
      else if c.Operator = ConstraintOperator.MustNotContain then
        EdgeData.mk (EdgeConstraint.mk
          d0.Constraint.NodeMustExist (d0.Constraint.NodeMustNotExist ++ [resource]))
      else d0
  addDependencyWithData ws c.TargetSource c.TargetTarget data

theorem getDependency_add_any (s t : ResourceId) (d : EdgeData) :
    ∀ ws : ConstructGraphDeps, ws.any (fun e => e.src == s && e.dst == t) = true →
      getDependency (ws.map (fun e =>
          if e.src == s && e.dst == t then DepEdge.mk s t (some d) else e)) s t
        = some (DepEdge.mk s t (some d)) := by
  intro ws
  induction ws with
  | nil => intro h; simp at h
  | cons e rest ih =>
    intro hany
    simp only [List.map_cons]
    by_cases hkey : (e.src == s && e.dst == t) = true
    · rw [if_pos hkey]
      unfold getDependency
      rw [List.find?_cons_of_pos _ (by simp)]
    · rw [if_neg hkey]
      unfold getDependency
      rw [List.find?_cons_of_neg _ (by simpa using hkey)]
      have hrest : rest.any (fun e => e.src == s && e.dst == t) = true := by
        rcases List.any_eq_true.mp hany with ⟨x, hx, hpx⟩
        rcases List.mem_cons.mp hx with rfl | hx2
        · exact absurd hpx hkey
        · exact List.any_eq_true.mpr ⟨x, hx2, hpx⟩
      exact ih hrest

theorem getDependency_add (ws : ConstructGraphDeps) (s t : ResourceId)
    (d : EdgeData) :
    getDependency (addDependencyWithData ws s t d) s t
      = some (DepEdge.mk s t (some d)) := by
  unfold addDependencyWithData
  by_cases hany : ws.any (fun e => e.src == s && e.dst == t) = true
  · rw [if_pos hany]
    exact getDependency_add_any s t d ws hany
  · rw [if_neg hany]
    induction ws with
    | nil =>
      unfold getDependency
      rw [List.nil_append, List.find?_cons_of_pos _ (by simp)]
    | cons e rest ih =>
      unfold getDependency
      have hkey : ¬ (e.src == s && e.dst == t) = true := by
        intro h
        exact hany (List.any_eq_true.mpr ⟨e, List.mem_cons_self e rest, h⟩)
      rw [List.cons_append, List.find?_cons_of_neg _ (by simpa using hkey)]
      apply ih
      intro h
      rcases List.any_eq_true.mp h with ⟨x, hx, hpx⟩
      exact hany (List.any_eq_true.mpr ⟨x, List.mem_cons_of_mem e hx, hpx⟩)

theorem nodeMatchFound_iff (p : List Edge) (rs : List Resource) :
    nodeMatchFound p rs = true ↔
      ∃ t ∈ pathNodes p, ∃ r ∈ rs, t = r.rtype := by
  unfold nodeMatchFound pathNodes
  simp only [List.any_eq_true, Bool.or_eq_true, beq_iff_eq, List.mem_flatMap,
    List.mem_cons, List.mem_singleton, List.not_mem_nil, or_false]
  constructor
  · rintro ⟨e, he, r, hr, h | h⟩
    · exact ⟨e.Source, ⟨e, he, Or.inl rfl⟩, r, hr, h⟩
    · exact ⟨e.Destination, ⟨e, he, Or.inr rfl⟩, r, hr, h⟩
  · rintro ⟨t, ⟨e, he, ht⟩, r, hr, hrt⟩
    rcases ht with rfl | rfl
    · exact ⟨e, he, r, hr, Or.inl hrt⟩
    · exact ⟨e, he, r, hr, Or.inr hrt⟩

theorem noMatch_iff (p : List Edge) (rs : List Resource) :
    (rs.isEmpty || ! nodeMatchFound p rs) = true ↔
      ¬ ∃ t ∈ pathNodes p, ∃ r ∈ rs, t = r.rtype := by
  by_cases h : rs = []
  · subst h
    simp
  · have hie : rs.isEmpty = false := by
      rcases rs with _ | ⟨x, xs⟩
      · exact absurd rfl h
      · rfl
    rw [hie, Bool.false_or, Bool.not_eq_true', ← Bool.not_eq_true,
      nodeMatchFound_iff]

/-- C3: applying a MustContain (MustNotContain) edge constraint appends the
instantiated node to the NodeMustExist (NodeMustNotExist) list in the target
edge's EdgeData, leaving the other list unchanged (creating the edge and the
data when absent); and edge expansion keeps exactly the knowledge-base paths
that contain a node whose type matches some NodeMustExist resource and no
node whose type matches a NodeMustNotExist resource. -/
theorem claim_C3 (ws : ConstructGraphDeps) (c : EdgeConstraintC)
    (data : EdgeData) (paths : List (List Edge)) (p : List Edge) :
    (c.Operator = ConstraintOperator.MustContain →
      getDependency (handleEdgeConstainConstraint ws c) c.TargetSource c.TargetTarget
        = some (DepEdge.mk c.TargetSource c.TargetTarget (some (EdgeData.mk
            (EdgeConstraint.mk
              ((oldEdgeData ws c).Constraint.NodeMustExist ++ [createResourceFromId c.Node])
              (oldEdgeData ws c).Constraint.NodeMustNotExist)))))
    ∧ (c.Operator = ConstraintOperator.MustNotContain →
      getDependency (handleEdgeConstainConstraint ws c) c.TargetSource c.TargetTarget
        = some (DepEdge.mk c.TargetSource c.TargetTarget (some (EdgeData.mk
            (EdgeConstraint.mk
              (oldEdgeData ws c).Constraint.NodeMustExist
              ((oldEdgeData ws c).Constraint.NodeMustNotExist
                ++ [createResourceFromId c.Node]))))))
    ∧ (data.Constraint.NodeMustExist ≠ [] →
        (p ∈ validPathsFor data paths ↔ p ∈ paths
          ∧ (∃ t ∈ pathNodes p, ∃ r ∈ data.Constraint.NodeMustExist, t = r.rtype)
          ∧ ¬ ∃ t ∈ pathNodes p, ∃ r ∈ data.Constraint.NodeMustNotExist, t = r.rtype)) := by
  refine ⟨?_, ?_, ?_⟩
  · intro hop
    unfold handleEdgeConstainConstraint oldEdgeData
    cases hdep : getDependency ws c.TargetSource c.TargetTarget with
    | none =>
      rw [hop]
      simp [getDependency_add, emptyEdgeData]
    | some dep =>
      rw [hop]
      simp [getDependency_add]
  · intro hop
    unfold handleEdgeConstainConstraint oldEdgeData
    cases hdep : getDependency ws c.TargetSource c.TargetTarget with
    | none =>
      rw [hop]
      simp [getDependency_add, emptyEdgeData]
    | some dep =>
      rw [hop]
      simp [getDependency_add]
  · intro hne
    have hie : data.Constraint.NodeMustExist.isEmpty = false := by
      rcases hh : data.Constraint.NodeMustExist with _ | ⟨x, xs⟩
      · exact absurd hh hne
      · rfl
    unfold validPathsFor
    rw [List.mem_filter, Bool.and_eq_true, hie, Bool.false_or,
      nodeMatchFound_iff, noMatch_iff]

theorem selectLoop_cons (src dst : ResourceId) (cur : List Edge)
    (errs : List ExpandErr) (path : List Edge) (rest : List (List Edge)) :
    selectLoop src dst cur errs (path :: rest)
      = if cur.isEmpty then selectLoop src dst path errs rest
        else if path.length < cur.length then selectLoop src dst path errs rest
        else if path.length = cur.length then
          selectLoop src dst cur (errs ++ [ExpandErr.multiplePaths src dst]) rest
        else selectLoop src dst cur errs rest := rfl

theorem bestOf_cons (cur path : List Edge) (rest : List (List Edge)) :
    bestOf cur (path :: rest)
      = if cur.isEmpty then bestOf path rest
        else if path.length < cur.length then bestOf path rest
        else bestOf cur rest := rfl

theorem selectLoop_fst (src dst : ResourceId) :
    ∀ (l : List (List Edge)) (cur : List Edge) (errs : List ExpandErr),
      (selectLoop src dst cur errs l).1 = bestOf cur l := by
  intro l
  induction l with
  | nil => intro cur errs; rfl
  | cons path rest ih =>
    intro cur errs
    rw [selectLoop_cons, bestOf_cons]
    by_cases h1 : cur.isEmpty
    · rw [if_pos h1, if_pos h1, ih]
    · rw [if_neg h1, if_neg h1]
      by_cases h2 : path.length < cur.length
      · rw [if_pos h2, if_pos h2, ih]
      · rw [if_neg h2, if_neg h2]
        by_cases h3 : path.length = cur.length
        · rw [if_pos h3, ih]
        · rw [if_neg h3, ih]

theorem selectLoop_errs_prefix (src dst : ResourceId) :
    ∀ (l : List (List Edge)) (cur : List Edge) (errs : List ExpandErr),
      ∃ tl, (selectLoop src dst cur errs l).2 = errs ++ tl := by
  intro l
  induction l with
  | nil => intro cur errs; exact ⟨[], by simp [selectLoop]⟩
  | cons path rest ih =>
    intro cur errs
    rw [selectLoop_cons]
    by_cases h1 : cur.isEmpty
    · rw [if_pos h1]; exact ih path errs
    · rw [if_neg h1]
      by_cases h2 : path.length < cur.length
      · rw [if_pos h2]; exact ih path errs
      · rw [if_neg h2]
        by_cases h3 : path.length = cur.length
        · rw [if_pos h3]
          rcases ih cur (errs ++ [ExpandErr.multiplePaths src dst]) with ⟨tl, htl⟩
          exact ⟨[ExpandErr.multiplePaths src dst] ++ tl, by rw [htl, List.append_assoc]⟩
        · rw [if_neg h3]; exact ih cur errs

theorem selectLoop_errs_mem (src dst : ResourceId) (l : List (List Edge))
    (cur : List Edge) (errs : List ExpandErr) (e : ExpandErr) (he : e ∈ errs) :
    e ∈ (selectLoop src dst cur errs l).2 := by
  rcases selectLoop_errs_prefix src dst l cur errs with ⟨tl, htl⟩
  rw [htl]
  exact List.mem_append_left tl he

theorem selectLoop_append (src dst : ResourceId) :
    ∀ (xs ys : List (List Edge)) (cur : List Edge) (errs : List ExpandErr),
      selectLoop src dst cur errs (xs ++ ys)
        = selectLoop src dst (selectLoop src dst cur errs xs).1
            (selectLoop src dst cur errs xs).2 ys := by
  intro xs
  induction xs with
  | nil => intro ys cur errs; rfl
  | cons path rest ih =>
    intro ys cur errs
    rw [List.cons_append, selectLoop_cons, selectLoop_cons]
    by_cases h1 : cur.isEmpty
    · rw [if_pos h1, if_pos h1, ih]
    · rw [if_neg h1, if_neg h1]
      by_cases h2 : path.length < cur.length
      · rw [if_pos h2, if_pos h2, ih]
      · rw [if_neg h2, if_neg h2]
        by_cases h3 : path.length = cur.length
        · rw [if_pos h3, if_pos h3, ih]
        · rw [if_neg h3, if_neg h3, ih]

theorem bestOf_ne_nil :
    ∀ (l : List (List Edge)) (cur : List Edge), cur ≠ [] → (∀ r ∈ l, r ≠ []) →
      bestOf cur l ≠ [] := by
  intro l
  induction l with
  | nil => intro cur hc _; exact hc
  | cons path rest ih =>
    intro cur hc hl
    rw [bestOf_cons, if_neg (by simpa [List.isEmpty_iff] using hc)]
    by_cases h2 : path.length < cur.length
    · rw [if_pos h2]
      exact ih path (hl path (List.mem_cons_self path rest))
        (fun r hr => hl r (List.mem_cons_of_mem path hr))
    · rw [if_neg h2]
      exact ih cur hc (fun r hr => hl r (List.mem_cons_of_mem path hr))

theorem bestOf_spec :
    ∀ (l : List (List Edge)) (cur : List Edge), cur ≠ [] → (∀ r ∈ l, r ≠ []) →
      (bestOf cur l = cur ∧ ∀ r ∈ l, cur.length ≤ r.length)
      ∨ (l.find? (fun r => decide (r.length ≤ (bestOf cur l).length))
            = some (bestOf cur l)
          ∧ (bestOf cur l).length < cur.length
          ∧ ∀ r ∈ l, (bestOf cur l).length ≤ r.length) := by
  intro l
  induction l with
  | nil => intro cur hc _; exact Or.inl ⟨rfl, by simp⟩
  | cons x rest ih =>
    intro cur hc hl
    have hx : x ≠ [] := hl x (List.mem_cons_self x rest)
    have hrest : ∀ r ∈ rest, r ≠ [] := fun r hr => hl r (List.mem_cons_of_mem x hr)
    have hbndef : bestOf cur (x :: rest)
        = if x.length < cur.length then bestOf x rest else bestOf cur rest := by
      rw [bestOf_cons, if_neg (by simpa [List.isEmpty_iff] using hc)]
    by_cases h2 : x.length < cur.length
    · rw [hbndef, if_pos h2]
      rcases ih x hx hrest with ⟨heq, hall⟩ | ⟨hfind, hlt, hall⟩
      · refine Or.inr ?_
        rw [heq]
        refine ⟨?_, h2, ?_⟩
        · rw [List.find?_cons_of_pos _ (by simp)]
        · intro r hr
          rcases List.mem_cons.mp hr with rfl | hr2
          · exact le_refl _
          · exact hall r hr2
      · refine Or.inr ⟨?_, lt_trans hlt h2, ?_⟩
        · rw [List.find?_cons_of_neg _ (by simp; omega), hfind]
        · intro r hr
          rcases List.mem_cons.mp hr with rfl | hr2
          · exact le_of_lt hlt
          · exact hall r hr2
    · rw [hbndef, if_neg h2]
      rcases ih cur hc hrest with ⟨heq, hall⟩ | ⟨hfind, hlt, hall⟩
      · refine Or.inl ⟨heq, ?_⟩
        intro r hr
        rcases List.mem_cons.mp hr with rfl | hr2
        · omega
        · exact hall r hr2
      · refine Or.inr ⟨?_, hlt, ?_⟩
        · rw [List.find?_cons_of_neg _ (by simp; omega), hfind]
        · intro r hr
          rcases List.mem_cons.mp hr with rfl | hr2
          · omega
          · exact hall r hr2

theorem selectTop_spec (src dst : ResourceId) (l : List (List Edge))
    (hl : ∀ r ∈ l, r ≠ []) (hne : l ≠ []) :
    (selectLoop src dst [] [] l).1 ∈ l
    ∧ (∀ r ∈ l, ((selectLoop src dst [] [] l).1).length ≤ r.length)
    ∧ l.find? (fun r => decide (r.length ≤ ((selectLoop src dst [] [] l).1).length))
        = some (selectLoop src dst [] [] l).1 := by
  rcases l with _ | ⟨x, rest⟩
  · exact absurd rfl hne
  have hx : x ≠ [] := hl x (List.mem_cons_self x rest)
  have hrest : ∀ r ∈ rest, r ≠ [] := fun r hr => hl r (List.mem_cons_of_mem x hr)
  have hfst : (selectLoop src dst [] [] (x :: rest)).1 = bestOf x rest := by
    rw [selectLoop_fst]
    rfl
  rw [hfst]
  rcases bestOf_spec rest x hx hrest with ⟨heq, hall⟩ | ⟨hfind, hlt, hall⟩
  · rw [heq]
    refine ⟨List.mem_cons_self x rest, ?_, ?_⟩
    · intro r hr
      rcases List.mem_cons.mp hr with rfl | hr2
      · exact le_refl _
      · exact hall r hr2
    · rw [List.find?_cons_of_pos _ (by simp)]
  · have hmem : bestOf x rest ∈ rest := List.mem_of_find?_eq_some hfind
    refine ⟨List.mem_cons_of_mem x hmem, ?_, ?_⟩
    · intro r hr
      rcases List.mem_cons.mp hr with rfl | hr2
      · exact le_of_lt hlt
      · exact hall r hr2
    · rw [List.find?_cons_of_neg _ (by simp; omega), hfind]

theorem selectLoop_tie (src dst : ResourceId) :
    ∀ (l2 : List (List Edge)) (q : List Edge) (l3 : List (List Edge))
      (cur : List Edge) (errs : List ExpandErr),
      cur ≠ [] → cur.length = q.length → (∀ r ∈ l2, cur.length ≤ r.length) →
      ExpandErr.multiplePaths src dst
        ∈ (selectLoop src dst cur errs (l2 ++ q :: l3)).2 := by
  intro l2
  induction l2 with
  | nil =>
    intro q l3 cur errs hc hlen _
    rw [List.nil_append, selectLoop_cons,
      if_neg (by simpa [List.isEmpty_iff] using hc), if_neg (by omega),
      if_pos hlen.symm]
    exact selectLoop_errs_mem src dst l3 cur _ _ (by simp)
  | cons x l2t ih =>
    intro q l3 cur errs hc hlen hall
    have hxle : cur.length ≤ x.length := hall x (List.mem_cons_self x l2t)
    rw [List.cons_append, selectLoop_cons,
      if_neg (by simpa [List.isEmpty_iff] using hc), if_neg (by omega)]
    by_cases h3 : x.length = cur.length
    · rw [if_pos h3]
      exact selectLoop_errs_mem src dst _ cur _ _ (by simp)
    · rw [if_neg h3]
      exact ih q l3 cur errs hc hlen
        (fun r hr => hall r (List.mem_cons_of_mem x hr))

theorem validPathsFor_ne_nil (kb : EdgeKB) (data : EdgeData) (a b : RType) :
    ∀ p ∈ validPathsFor data (FindPaths kb a b), p ≠ [] := by
  intro p hp
  exact findPathsF_ne_nil kb _ a b [] [] p (List.mem_of_mem_filter hp)

/-- C4: every dependency is processed and all recorded errors are returned
together: the selection results are per-dependency and the final error list
is the concatenation of each dependency's errors (a failing dependency only
adds errors, never stops the loop).  A dependency with no constraint-
satisfying path records a no-paths error naming it.  When the
constraint-satisfying paths contain two with the same minimal length, a
multiple-paths error is recorded, while the selected path is still the
earliest minimal one (no earlier path has length within the minimum). -/
theorem claim_C4 (kb : EdgeKB) (deps : List Dependency) (dep : Dependency)
    (l1 l2 l3 : List (List Edge)) (p q : List Edge) :
    ((expandEdgesSelect kb deps).1
        = deps.map (fun d => (d, (expandDepSelection kb d).1))
      ∧ (expandEdgesSelect kb deps).2
        = deps.flatMap (fun d => (expandDepSelection kb d).2))
    ∧ (validPathsFor (dep.data.getD emptyEdgeData)
          (FindPaths kb dep.Source.rtype dep.Destination.rtype) = [] →
        expandDepSelection kb dep
          = (none, [ExpandErr.noPaths dep.Source.id dep.Destination.id]))
    ∧ (validPathsFor (dep.data.getD emptyEdgeData)
          (FindPaths kb dep.Source.rtype dep.Destination.rtype)
            = l1 ++ (p :: l2 ++ q :: l3) →
        (∀ r ∈ l1 ++ (p :: l2 ++ q :: l3), p.length ≤ r.length) →
        q.length = p.length →
        ExpandErr.multiplePaths dep.Source.id dep.Destination.id
            ∈ (expandDepSelection kb dep).2
        ∧ ∃ sel, (expandDepSelection kb dep).1 = some sel
            ∧ sel.length = p.length
            ∧ (l1 ++ (p :: l2 ++ q :: l3)).find?
                (fun r => decide (r.length ≤ sel.length)) = some sel) := by
  refine ⟨⟨?_, ?_⟩, ?_, ?_⟩
  · induction deps with
    | nil => rfl
    | cons d rest ih => simp [expandEdgesSelect, ih]
  · induction deps with
    | nil => rfl
    | cons d rest ih => simp [expandEdgesSelect, ih]
  · intro hvp
    simp only [expandDepSelection]
    rw [hvp]
    rfl
  · intro hvp hmin hq
    have hnn : ∀ r ∈ l1 ++ (p :: l2 ++ q :: l3), r ≠ [] := by
      rw [← hvp]
      exact validPathsFor_ne_nil kb _ _ _
    have hpmem : p ∈ l1 ++ (p :: l2 ++ q :: l3) :=
      List.mem_append_right l1 (List.mem_append_left _ (List.mem_cons_self p l2))
    have hLne : l1 ++ (p :: l2 ++ q :: l3) ≠ [] := by
      intro h
      rw [h] at hpmem
      exact List.not_mem_nil p hpmem
    have hsel := selectTop_spec dep.Source.id dep.Destination.id _ hnn hLne
    set sel := (selectLoop dep.Source.id dep.Destination.id [] []
      (l1 ++ (p :: l2 ++ q :: l3))).1 with hseldef
    have hselne : sel ≠ [] := hnn sel hsel.1
    have hsellen : sel.length = p.length :=
      le_antisymm (hsel.2.1 p hpmem) (hmin sel hsel.1)
    have hdecomp : l1 ++ (p :: l2 ++ q :: l3) = (l1 ++ (p :: l2)) ++ (q :: l3) := by
      simp
    have herr : ExpandErr.multiplePaths dep.Source.id dep.Destination.id
        ∈ (selectLoop dep.Source.id dep.Destination.id [] []
            (l1 ++ (p :: l2 ++ q :: l3))).2 := by
      rw [hdecomp, selectLoop_append]
      have hprefnn : ∀ r ∈ l1 ++ (p :: l2), r ≠ [] := by
        intro r hr
        refine hnn r ?_
        rw [hdecomp]
        exact List.mem_append_left _ hr
      have hprefne : l1 ++ (p :: l2) ≠ [] := by simp
      have hcur := selectTop_spec dep.Source.id dep.Destination.id (l1 ++ (p :: l2))
        hprefnn hprefne
      set cur := (selectLoop dep.Source.id dep.Destination.id [] [] (l1 ++ (p :: l2))).1
      have hcne : cur ≠ [] := hprefnn cur hcur.1
      have hcmem : cur ∈ l1 ++ (p :: l2 ++ q :: l3) := by
        rw [hdecomp]
        exact List.mem_append_left _ hcur.1
      have hclen : cur.length = p.length :=
        le_antisymm
          (hcur.2.1 p (List.mem_append_right l1 (List.mem_cons_self p l2)))
          (hmin cur hcmem)
      have htie := selectLoop_tie dep.Source.id dep.Destination.id [] q l3 cur
        (selectLoop dep.Source.id dep.Destination.id [] [] (l1 ++ (p :: l2))).2
        hcne (by omega) (by intro r hr; simp at hr)
      simpa using htie
    constructor
    · simp only [expandDepSelection]
      rw [hvp, if_neg (by simpa [List.isEmpty_iff] using hselne)]
      exact herr
    · refine ⟨sel, ?_, hsellen, hsel.2.2⟩
      simp only [expandDepSelection]
      rw [hvp, if_neg (by simpa [List.isEmpty_iff] using hselne)]

/-- Knowledge base with two equal-length paths S-A-T and S-B-T, used to
exhibit the multiple-paths tie. -/
def kbTie : EdgeKB :=
  [(Edge.mk "S" "A", EdgeDetails.mk false ["T"]),
   (Edge.mk "A" "T", EdgeDetails.mk false ["T"]),
   (Edge.mk "S" "B", EdgeDetails.mk false ["T"]),
   (Edge.mk "B" "T", EdgeDetails.mk false ["T"])]

/-- Dependency from an S resource to a T resource with no edge data. -/
def depTie : Dependency :=
  Dependency.mk (Resource.mk "S" (ResourceId.mk "aws" "s" "" "s1"))
    (Resource.mk "T" (ResourceId.mk "aws" "t" "" "t1")) none

/-- C4 witness: on the tie knowledge base, expansion of the S-to-T dependency
records a multiple-paths error, obtained by instantiating the theorem at the
two equal-length paths. -/
theorem claim_C4_witness :
    ExpandErr.multiplePaths (ResourceId.mk "aws" "s" "" "s1")
        (ResourceId.mk "aws" "t" "" "t1")
      ∈ (expandDepSelection kbTie depTie).2 :=
  ((claim_C4 kbTie [] depTie [] [] []
      [Edge.mk "S" "A", Edge.mk "A" "T"] [Edge.mk "S" "B", Edge.mk "B" "T"]).2.2
    (by decide) (by decide) (by decide)).1

/-! ## The earlier engine variant (src/unnamed/part_005) -/

/-- Modelled from the spec: core.AbstractConstructProvider, the reserved
provider value of abstract constructs (the core package is not among the
sources; the spec calls the value `abstract`). -/
def AbstractConstructProvider : String := "abstract"

/-- End-state resource graph of the earlier engine: resources plus
dependencies carrying optional edge data. -/
structure ResourceGraphP5 where
  resources : List Resource
  deps : ConstructGraphDeps
deriving Repr, DecidableEq

/-- Embeds core.ResourceGraph.GetResource: the resource with the given id. -/
def getResourceP5 (g : ResourceGraphP5) (id : ResourceId) : Option Resource :=
  g.resources.find? (fun r => r.id == id)

/-- Errors of the part_005 handleEdgeConstainConstraint. -/
inductive P5Err where
  | srcConstructNotFound (id : ResourceId)
  | srcResourceNotFound (id : ResourceId)
  | dstConstructNotFound (id : ResourceId)
  | dstResourceNotFound (id : ResourceId)
  | edgeDataCast (src dst : ResourceId)
deriving Repr, DecidableEq

/-- Modelled from the spec: adding a dependency inserts missing endpoint
resources and upserts the edge with its data (core.ResourceGraph's
AddDependencyWithData is not among the sources). -/
def addDependencyWithDataP5 (g : ResourceGraphP5) (src dst : Resource)
    (d : EdgeData) : ResourceGraphP5 :=
  let rs1 := if g.resources.any (fun r => r.id == src.id) then g.resources
             else g.resources ++ [src]
  let rs2 := if rs1.any (fun r => r.id == dst.id) then rs1 else rs1 ++ [dst]
  ResourceGraphP5.mk rs2 (addDependencyWithData g.deps src.id dst.id d)

/-- Body of the nested loop of the part_005 handleEdgeConstainConstraint
(part_005 lines 396-430): recompute the target edge's data from the evolving
end state (a present edge whose data is not EdgeData fails the cast), extend
the list chosen by the operator, and re-add the dependency between the pair's
resources. -/
def p5LoopBody (c : EdgeConstraintC) (resource : Resource)
    (g : ResourceGraphP5) (pair : Resource × Resource) :
    Except P5Err ResourceGraphP5 :=
  match getDependency g.deps c.TargetSource c.TargetTarget with
  | none =>
    let data :=
      if c.Operator = ConstraintOperator.MustContain then
        EdgeData.mk (EdgeConstraint.mk [resource] [])
      else if c.Operator = ConstraintOperator.MustNotContain then
        EdgeData.mk (EdgeConstraint.mk [] [resource])
      else emptyEdgeData
    Except.ok (addDependencyWithDataP5 g pair.1 pair.2 data)
  | some dep =>
    match dep.data with
    | none => Except.error (P5Err.edgeDataCast c.TargetSource c.TargetTarget)
    | some d0 =>
      let data :=
        if c.Operator = ConstraintOperator.MustContain then
          EdgeData.mk (EdgeConstraint.mk
            (d0.Constraint.NodeMustExist ++ [resource])
            d0.Constraint.NodeMustNotExist)
        else if c.Operator = ConstraintOperator.MustNotContain then
          EdgeData.mk (EdgeConstraint.mk
            d0.Constraint.NodeMustExist
            (d0.Constraint.NodeMustNotExist ++ [resource]))
        else d0
      Except.ok (addDependencyWithDataP5 g pair.1 pair.2 data)

/-- Embeds Engine.handleEdgeConstainConstraint of part_005 (lines 361-432).
The source nodes come from the construct mapping (abstract provider) or the
end state; for a non-abstract destination the code only checks that the
resource exists and, decisively, never appends it to dstNodes (lines
385-390), so the nested loop runs over srcNodes x dstNodes with dstNodes
empty. -/
def handleEdgeConstainConstraintP5 (endState : ResourceGraphP5)
    (mapping : List (ResourceId × List Resource)) (c : EdgeConstraintC) :
    Except P5Err ResourceGraphP5 :=
  let srcRes : Except P5Err (List Resource) :=
    if c.TargetSource.provider = AbstractConstructProvider then
      match mapping.find? (fun m => m.1 == c.TargetSource) with
      | some m => Except.ok m.2
      | none => Except.error (P5Err.srcConstructNotFound c.TargetSource)
    else
      match getResourceP5 endState c.TargetSource with
      | some src => Except.ok [src]
      | none => Except.error (P5Err.srcResourceNotFound c.TargetSource)
  let dstRes : Except P5Err (List Resource) :=
    if c.TargetTarget.provider = AbstractConstructProvider then
      match mapping.find? (fun m => m.1 == c.TargetTarget) with
      | some m => Except.ok m.2
      | none => Except.error (P5Err.dstConstructNotFound c.TargetTarget)
    else
      match getResourceP5 endState c.TargetTarget with
      | some _ => Except.ok []
      | none => Except.error (P5Err.dstResourceNotFound c.TargetTarget)
  match srcRes with
  | Except.error e => Except.error e
  | Except.ok srcNodes =>
    match dstRes with
    | Except.error e => Except.error e
    | Except.ok dstNodes =>
      let resource := createResourceFromId c.Node
      let pairs := srcNodes.flatMap (fun s => dstNodes.map (fun d => (s, d)))
      pairs.foldlM (p5LoopBody c resource) endState

/-- C9: for a MustContain or MustNotContain edge constraint whose target's
destination is a non-abstract resource present in the end state (and whose
source side resolves), the part_005 handleEdgeConstainConstraint returns
success with the end state completely unchanged: the destination resource is
never appended to dstNodes, so the edge-data loop runs zero times. -/
theorem claim_C9 (endState : ResourceGraphP5)
    (mapping : List (ResourceId × List Resource)) (c : EdgeConstraintC)
    (r : Resource)
    (hdstNotAbstract : c.TargetTarget.provider ≠ AbstractConstructProvider)
    (hdstFound : getResourceP5 endState c.TargetTarget = some r)
    (hsrc : (c.TargetSource.provider = AbstractConstructProvider →
        (mapping.find? (fun m => m.1 == c.TargetSource)).isSome)
      ∧ (c.TargetSource.provider ≠ AbstractConstructProvider →
        (getResourceP5 endState c.TargetSource).isSome)) :
    handleEdgeConstainConstraintP5 endState mapping c = Except.ok endState := by
  unfold handleEdgeConstainConstraintP5
  simp only [if_neg hdstNotAbstract, hdstFound]
  by_cases hs : c.TargetSource.provider = AbstractConstructProvider
  · rcases hfind : mapping.find? (fun m => m.1 == c.TargetSource) with _ | m
    · have := hsrc.1 hs
      rw [hfind] at this
      simp at this
    · simp only [if_pos hs, hfind]
      simp [List.flatMap]
      rfl
  · rcases hres : getResourceP5 endState c.TargetSource with _ | src
    · have := hsrc.2 hs
      rw [hres] at this
      simp at this
    · simp only [if_neg hs, hres]
      simp [List.flatMap]
      rfl

/-- C9 witness: a concrete end state with one T resource, a MustContain
constraint targeting the edge onto that resource: the call succeeds and the
end state is untouched. -/
theorem claim_C9_witness :
    handleEdgeConstainConstraintP5
        (ResourceGraphP5.mk
          [Resource.mk "S" (ResourceId.mk "aws" "s" "" "s1"),
           Resource.mk "T" (ResourceId.mk "aws" "t" "" "t1")] [])
        []
        (EdgeConstraintC.mk ConstraintOperator.MustContain
          (ResourceId.mk "aws" "s" "" "s1") (ResourceId.mk "aws" "t" "" "t1")
          (ResourceId.mk "aws" "n" "" "n1"))
      = Except.ok (ResourceGraphP5.mk
          [Resource.mk "S" (ResourceId.mk "aws" "s" "" "s1"),
           Resource.mk "T" (ResourceId.mk "aws" "t" "" "t1")] []) :=
  claim_C9
    (ResourceGraphP5.mk
      [Resource.mk "S" (ResourceId.mk "aws" "s" "" "s1"),
       Resource.mk "T" (ResourceId.mk "aws" "t" "" "t1")] [])
    []
    (EdgeConstraintC.mk ConstraintOperator.MustContain
      (ResourceId.mk "aws" "s" "" "s1") (ResourceId.mk "aws" "t" "" "t1")
      (ResourceId.mk "aws" "n" "" "n1"))
    (Resource.mk "T" (ResourceId.mk "aws" "t" "" "t1"))
    (by decide) (by decide) ⟨by decide, by decide⟩

/-- C3 witness: applying a MustContain constraint for node N to the edge
S -> T of an empty working state records N in NodeMustExist, and the
singleton knowledge-base path S-T survives the filter because T matches N.
The concrete values instantiate the amended-free theorem. -/
theorem claim_C3_witness :
    getDependency
        (handleEdgeConstainConstraint []
          (EdgeConstraintC.mk ConstraintOperator.MustContain
            (ResourceId.mk "aws" "s" "" "s1") (ResourceId.mk "aws" "t" "" "t1")
            (ResourceId.mk "aws" "n" "" "n1")))
        (ResourceId.mk "aws" "s" "" "s1") (ResourceId.mk "aws" "t" "" "t1")
      = some (DepEdge.mk (ResourceId.mk "aws" "s" "" "s1")
          (ResourceId.mk "aws" "t" "" "t1")
          (some (EdgeData.mk (EdgeConstraint.mk
            [createResourceFromId (ResourceId.mk "aws" "n" "" "n1")] [])))) :=
  (claim_C3 []
    (EdgeConstraintC.mk ConstraintOperator.MustContain
      (ResourceId.mk "aws" "s" "" "s1") (ResourceId.mk "aws" "t" "" "t1")
      (ResourceId.mk "aws" "n" "" "n1"))
    emptyEdgeData [] []).1 rfl

/-! ## Path materialization order (engine2 path_selection, src/unnamed/part_004) -/

/-- A graph-affecting action of addPathToGraph: a handleProperties visit of a
resource, a vertex insertion, or an edge insertion. -/
inductive GraphEvent where
  | handled (r : ResourceId)
  | addVertex (r : ResourceId)
  | addEdge (src dst : ResourceId)
deriving Repr, DecidableEq

/-- Embeds the loop of handleProperties (part_004 lines 225-282) at the level
of its visit order: the index runs from the last resource down to the first,
so the recursion emits the tail's visits before the head's. -/
def handlePropertiesTrace : List ResourceId → List GraphEvent
  | [] => []
  | r :: rs => handlePropertiesTrace rs ++ [GraphEvent.handled r]

/-- Embeds the insertion loop of addPathToGraph (part_004 lines 545-560):
each resource is added as a vertex, and from the second one on an edge from
the previous resource is added. -/
def addLoopTrace (prev : Option ResourceId) : List ResourceId → List GraphEvent
  | [] => []
  | r :: rs =>
    match prev with
    | none => GraphEvent.addVertex r :: addLoopTrace (some r) rs
    | some p => GraphEvent.addVertex r :: GraphEvent.addEdge p r :: addLoopTrace (some r) rs

/-- Embeds addPathToGraph (part_004 lines 516-562) as the sequence of actions
it performs on the result graph: the resource-construction loop reads but
never writes the graph, then handleProperties runs on the whole path, and
only then the vertices and edges are inserted. -/
def addPathToGraphTrace (path : List ResourceId) : List GraphEvent :=
  handlePropertiesTrace path ++ addLoopTrace none path

theorem handlePropertiesTrace_reverse (path : List ResourceId) :
    handlePropertiesTrace path = path.reverse.map GraphEvent.handled := by
  induction path with
  | nil => rfl
  | cons r rs ih =>
    show handlePropertiesTrace rs ++ [GraphEvent.handled r] = _
    rw [ih, List.reverse_cons, List.map_append]
    rfl

/-- C7: addPathToGraph performs every handleProperties visit before any
vertex or edge of the path is added to the result graph, and the visits
happen in reverse path order: the trace is exactly the reversed path's
handled events followed by the insertion events, and the insertion phase
contains only vertex and edge additions. -/
theorem claim_C7 (path : List ResourceId) :
    addPathToGraphTrace path
      = path.reverse.map GraphEvent.handled ++ addLoopTrace none path
    ∧ (∀ prev : Option ResourceId, ∀ e ∈ addLoopTrace prev path,
        (∃ r, e = GraphEvent.addVertex r) ∨ (∃ a b, e = GraphEvent.addEdge a b)) := by
  constructor
  · rw [addPathToGraphTrace, handlePropertiesTrace_reverse]
  · intro prev
    induction path generalizing prev with
    | nil => intro e he; simp [addLoopTrace] at he
    | cons r rs ih =>
      intro e he
      cases prev with
      | none =>
        rcases List.mem_cons.mp he with rfl | he2
        · exact Or.inl ⟨r, rfl⟩
        · exact ih (some r) e he2
      | some p =>
        rcases List.mem_cons.mp he with rfl | he2
        · exact Or.inl ⟨r, rfl⟩
        · rcases List.mem_cons.mp he2 with rfl | he3
          · exact Or.inr ⟨p, r, rfl⟩
          · exact ih (some r) e he3

/-- C7 witness: on a concrete three-node path the trace is the three handled
events in reverse order followed by the insertions, by the theorem. -/
theorem claim_C7_witness :
    addPathToGraphTrace
        [ResourceId.mk "aws" "a" "" "1", ResourceId.mk "aws" "b" "" "2",
         ResourceId.mk "aws" "c" "" "3"]
      = [GraphEvent.handled (ResourceId.mk "aws" "c" "" "3"),
         GraphEvent.handled (ResourceId.mk "aws" "b" "" "2"),
         GraphEvent.handled (ResourceId.mk "aws" "a" "" "1")]
        ++ addLoopTrace none
          [ResourceId.mk "aws" "a" "" "1", ResourceId.mk "aws" "b" "" "2",
           ResourceId.mk "aws" "c" "" "3"] := by
  have h := (claim_C7
    [ResourceId.mk "aws" "a" "" "1", ResourceId.mk "aws" "b" "" "2",
     ResourceId.mk "aws" "c" "" "3"]).1
  rw [h]
  rfl

/-! ## Path sorting and stable shortest path (part_004 expandEdge, lines 62-104) -/

/-- First-difference comparison of two lists: the first position where the
lists disagree decides via `lt`; lists without a disagreement (equal, or one
a prefix of the other) compare false.  This is the inner loop of the sort
comparator in expandEdge (part_004 lines 71-77). -/
def lexBy {α : Type} [DecidableEq α] (lt : α → α → Bool) : List α → List α → Bool
  | x :: xs, y :: ys => if x ≠ y then lt x y else lexBy lt xs ys
  | _, _ => false

theorem lexBy_irrefl {α : Type} [DecidableEq α] (lt : α → α → Bool) :
    ∀ l, lexBy lt l l = false := by
  intro l
  induction l with
  | nil => rfl
  | cons x xs ih =>
    show (if x ≠ x then lt x x else lexBy lt xs xs) = false
    rw [if_neg (by simp), ih]

theorem lexBy_trans {α : Type} [DecidableEq α] (lt : α → α → Bool)
    (hirr : ∀ u, lt u u = false)
    (htr : ∀ u v w, lt u v = true → lt v w = true → lt u w = true) :
    ∀ l1 l2 l3, lexBy lt l1 l2 = true → lexBy lt l2 l3 = true →
      lexBy lt l1 l3 = true := by
  intro l1
  induction l1 with
  | nil => intro l2 l3 h1; simp [lexBy] at h1
  | cons x xs ih =>
    intro l2 l3 h1 h2
    rcases l2 with _ | ⟨y, ys⟩
    · simp [lexBy] at h1
    rcases l3 with _ | ⟨z, zs⟩
    · simp [lexBy] at h2
    have hasym : ∀ u v, lt u v = true → lt v u = true → False := by
      intro u v huv hvu
      have := htr u v u huv hvu
      rw [hirr u] at this
      exact Bool.false_ne_true this
    rw [lexBy] at h1 h2 ⊢
    by_cases hxy : x = y
    · subst hxy
      rw [if_neg (by simp)] at h1
      by_cases hyz : x = z
      · subst hyz
        rw [if_neg (by simp)] at h2
        rw [if_neg (by simp)]
        exact ih ys zs h1 h2
      · rw [if_pos hyz] at h2
        rw [if_pos hyz]
        exact h2
    · rw [if_pos hxy] at h1
      by_cases hyz : y = z
      · subst hyz
        rw [if_pos hxy]
        exact h1
      · rw [if_pos hyz] at h2
        have hxz : x ≠ z := by
          intro h
          subst h
          exact hasym x y h1 h2
        rw [if_pos hxz]
        exact htr x y z h1 h2

theorem lexBy_total_ne {α : Type} [DecidableEq α] (lt : α → α → Bool)
    (htot : ∀ u v, u ≠ v → lt u v = true ∨ lt v u = true) :
    ∀ l1 l2, l1.length = l2.length → l1 ≠ l2 →
      lexBy lt l1 l2 = true ∨ lexBy lt l2 l1 = true := by
  intro l1
  induction l1 with
  | nil =>
    intro l2 hlen hne
    rcases l2 with _ | ⟨y, ys⟩
    · exact absurd rfl hne
    · simp at hlen
  | cons x xs ih =>
    intro l2 hlen hne
    rcases l2 with _ | ⟨y, ys⟩
    · simp at hlen
    rw [lexBy, lexBy]
    by_cases hxy : x = y
    · subst hxy
      have hne2 : xs ≠ ys := by
        intro h
        exact hne (by rw [h])
      rw [if_neg (by simp), if_neg (by simp)]
      exact ih ys (by simpa using hlen) hne2
    · rw [if_pos hxy, if_pos (Ne.symm hxy)]
      exact htot x y hxy

theorem lexBy_iff_lex {α : Type} [DecidableEq α] (lt : α → α → Bool)
    (hirr : ∀ u, lt u u = false) :
    ∀ l1 l2, l1.length = l2.length →
      (lexBy lt l1 l2 = true ↔ List.Lex (fun u v => lt u v = true) l1 l2) := by
  intro l1
  induction l1 with
  | nil =>
    intro l2 hlen
    rcases l2 with _ | ⟨y, ys⟩
    · simp [lexBy]
    · simp at hlen
  | cons x xs ih =>
    intro l2 hlen
    rcases l2 with _ | ⟨y, ys⟩
    · simp at hlen
    rw [lexBy]
    by_cases hxy : x = y
    · subst hxy
      rw [if_neg (by simp)]
      rw [ih ys (by simpa using hlen)]
      constructor
      · intro h
        exact List.Lex.cons h
      · intro h
        cases h with
        | cons h => exact h
        | rel h =>
          rw [hirr x] at h
          exact absurd h (Bool.false_ne_true)
    · rw [if_pos hxy]
      constructor
      · intro h
        exact List.Lex.rel h
      · intro h
        cases h with
        | cons h => exact absurd rfl hxy
        | rel h => exact h

/-- Dictionary order on character lists: the empty list precedes any
nonempty list and the first differing character decides. -/
def charListLess : List Char → List Char → Bool
  | [], [] => false
  | [], _ :: _ => true
  | _ :: _, [] => false
  | a :: as, b :: bs => if a ≠ b then decide (a < b) else charListLess as bs

theorem charListLess_irrefl : ∀ l, charListLess l l = false := by
  intro l
  induction l with
  | nil => rfl
  | cons a as ih =>
    show (if a ≠ a then decide (a < a) else charListLess as as) = false
    rw [if_neg (by simp), ih]

theorem charListLess_trans :
    ∀ l1 l2 l3, charListLess l1 l2 = true → charListLess l2 l3 = true →
      charListLess l1 l3 = true := by
  intro l1
  induction l1 with
  | nil =>
    intro l2 l3 h1 h2
    rcases l2 with _ | ⟨b, bs⟩
    · simp [charListLess] at h1
    rcases l3 with _ | ⟨c, cs⟩
    · simp [charListLess] at h2
    rfl
  | cons a as ih =>
    intro l2 l3 h1 h2
    rcases l2 with _ | ⟨b, bs⟩
    · simp [charListLess] at h1
    rcases l3 with _ | ⟨c, cs⟩
    · simp [charListLess] at h2
    rw [charListLess] at h1 h2 ⊢
    by_cases hab : a = b
    · subst hab
      rw [if_neg (by simp)] at h1
      by_cases hbc : a = c
      · subst hbc
        rw [if_neg (by simp)] at h2
        rw [if_neg (by simp)]
        exact ih bs cs h1 h2
      · rw [if_pos hbc] at h2
        rw [if_pos hbc]
        exact h2
    · rw [if_pos hab] at h1
      by_cases hbc : b = c
      · subst hbc
        rw [if_pos hab]
        exact h1
      · rw [if_pos hbc] at h2
        simp only [decide_eq_true_eq] at h1 h2
        have hac : a ≠ c := by
          intro h
          subst h
          exact absurd (lt_trans h1 h2) (lt_irrefl a)
        rw [if_pos hac]
        simp only [decide_eq_true_eq]
        exact lt_trans h1 h2

theorem charListLess_total_ne :
    ∀ l1 l2, l1 ≠ l2 → charListLess l1 l2 = true ∨ charListLess l2 l1 = true := by
  intro l1
  induction l1 with
  | nil =>
    intro l2 hne
    rcases l2 with _ | ⟨b, bs⟩
    · exact absurd rfl hne
    · exact Or.inl rfl
  | cons a as ih =>
    intro l2 hne
    rcases l2 with _ | ⟨b, bs⟩
    · exact Or.inr rfl
    rw [charListLess, charListLess]
    by_cases hab : a = b
    · subst hab
      have hne2 : as ≠ bs := fun h => hne (by rw [h])
      rw [if_neg (by simp), if_neg (by simp)]
      exact ih bs hne2
    · rw [if_pos hab, if_pos (Ne.symm hab)]
      simp only [decide_eq_true_eq]
      exact lt_or_gt_of_ne hab

/-- Computable dictionary order on strings, via their character lists (the
standard String order is iterator-based; as the spec only requires a total
order, this equivalent one is used in the modelled ResourceIdLess). -/
def strLess (s t : String) : Bool := charListLess s.data t.data

theorem strLess_irrefl (u : String) : strLess u u = false :=
  charListLess_irrefl _

theorem strLess_trans (u v w : String) (h1 : strLess u v = true)
    (h2 : strLess v w = true) : strLess u w = true :=
  charListLess_trans _ _ _ h1 h2

theorem strLess_total_ne (u v : String) (h : u ≠ v) :
    strLess u v = true ∨ strLess v u = true :=
  charListLess_total_ne _ _ (fun hd => h (String.ext hd))

/-- Modelled from the spec: construct.ResourceIdLess, the total order on
resource ids (spec section 3: ResourceId is the tuple (provider, type,
namespace, name), totally ordered); rendered as the lexicographic order on
the four string fields. -/
def ResourceIdLess (a b : ResourceId) : Bool :=
  lexBy strLess
    [a.provider, a.rtype, a.rnamespace, a.rname]
    [b.provider, b.rtype, b.rnamespace, b.rname]

theorem ResourceIdLess_irrefl (a : ResourceId) : ResourceIdLess a a = false :=
  lexBy_irrefl _ _

theorem ResourceIdLess_trans (a b c : ResourceId)
    (h1 : ResourceIdLess a b = true) (h2 : ResourceIdLess b c = true) :
    ResourceIdLess a c = true :=
  lexBy_trans _ strLess_irrefl (fun u v w => strLess_trans u v w) _ _ _ h1 h2

theorem ResourceIdLess_total (a b : ResourceId) (hne : a ≠ b) :
    ResourceIdLess a b = true ∨ ResourceIdLess b a = true := by
  refine lexBy_total_ne _ ?_ _ _ rfl ?_
  · exact strLess_total_ne
  · intro h
    apply hne
    cases a
    cases b
    simp at h
    simp [h.1, h.2.1, h.2.2.1, h.2.2.2]

/-- Embeds the sort comparator of expandEdge (part_004 lines 66-78): shorter
paths come first, equal-length paths compare at the first index where they
differ via construct.ResourceIdLess, and equal paths compare false. -/
def pathLess (p q : List ResourceId) : Bool :=
  if p.length ≠ q.length then decide (p.length < q.length)
  else lexBy ResourceIdLess p q

theorem pathLess_irrefl (p : List ResourceId) : pathLess p p = false := by
  unfold pathLess
  rw [if_neg (by simp)]
  exact lexBy_irrefl ResourceIdLess p

theorem pathLess_trans (p q r : List ResourceId)
    (h1 : pathLess p q = true) (h2 : pathLess q r = true) :
    pathLess p r = true := by
  unfold pathLess at *
  by_cases hpq : p.length = q.length
  · rw [if_neg (by simpa using hpq)] at h1
    by_cases hqr : q.length = r.length
    · rw [if_neg (by simpa using hqr)] at h2
      rw [if_neg (by simp [hpq, hqr])]
      exact lexBy_trans ResourceIdLess ResourceIdLess_irrefl
        (fun u v w => ResourceIdLess_trans u v w) p q r h1 h2
    · rw [if_pos (by simpa using hqr)] at h2
      rw [if_pos (by simp; omega)]
      simp only [decide_eq_true_eq] at h2 ⊢
      omega
  · rw [if_pos (by simpa using hpq)] at h1
    simp only [decide_eq_true_eq] at h1
    by_cases hqr : q.length = r.length
    · rw [if_pos (by simp; omega)]
      simp only [decide_eq_true_eq]
      omega
    · rw [if_pos (by simpa using hqr)] at h2
      simp only [decide_eq_true_eq] at h2
      rw [if_pos (by simp; omega)]
      simp only [decide_eq_true_eq]
      omega

theorem pathLess_total_ne (p q : List ResourceId) (hne : p ≠ q) :
    pathLess p q = true ∨ pathLess q p = true := by
  unfold pathLess
  by_cases hlen : p.length = q.length
  · rw [if_neg (by simpa using hlen), if_neg (by simp [hlen])]
    exact lexBy_total_ne ResourceIdLess ResourceIdLess_total p q hlen hne
  · rw [if_pos (by simpa using hlen), if_pos (by simp; omega)]
    simp only [decide_eq_true_eq]
    omega

theorem pathLess_asym (p q : List ResourceId)
    (h1 : pathLess p q = true) (h2 : pathLess q p = true) : False := by
  have := pathLess_trans p q p h1 h2
  rw [pathLess_irrefl] at this
  exact Bool.false_ne_true this

/-- The pairwise guarantee of Go sort.Slice after sorting with the expandEdge
comparator: no later path compares strictly before an earlier one. -/
def pathGE (p q : List ResourceId) : Prop := pathLess q p = false

instance : DecidableRel pathGE := fun p q => by
  unfold pathGE
  infer_instance

instance : IsTotal (List ResourceId) pathGE where
  total p q := by
    unfold pathGE
    by_cases h : pathLess q p = true
    · refine Or.inr ?_
      cases hc : pathLess p q with
      | false => rfl
      | true => exact (pathLess_asym p q hc h).elim
    · exact Or.inl (by simpa using h)

instance : IsTrans (List ResourceId) pathGE where
  trans p q r h1 h2 := by
    unfold pathGE at *
    cases hc : pathLess r p with
    | false => rfl
    | true =>
      exfalso
      by_cases hpq : p = q
      · subst hpq
        rw [hc] at h2
        simp at h2
      · rcases pathLess_total_ne p q hpq with h | h
        · have := pathLess_trans r p q hc h
          rw [this] at h2
          simp at h2
        · rw [h] at h1
          simp at h1

instance : IsAntisymm (List ResourceId) pathGE where
  antisymm p q h1 h2 := by
    unfold pathGE at h1 h2
    by_contra hne
    rcases pathLess_total_ne p q hne with h | h
    · rw [h] at h2
      simp at h2
    · rw [h] at h1
      simp at h1

/-- Embeds `sort.Slice(paths, ...)` of expandEdge (part_004 line 66): the
comparator is a strict total order on distinct paths, so the sorted
permutation is unique and realizing the sort by insertion sort is exact. -/
def sortPaths (paths : List (List ResourceId)) : List (List ResourceId) :=
  List.insertionSort pathGE paths

/-- The claim's path order: shorter first; equal length lexicographically
over the node ids by the total ResourceId order. -/
def claimPathOrder (p q : List ResourceId) : Prop :=
  p.length < q.length
  ∨ (p.length = q.length
      ∧ (p = q ∨ List.Lex (fun a b => ResourceIdLess a b = true) p q))

theorem pathGE_iff (p q : List ResourceId) : pathGE p q ↔ claimPathOrder p q := by
  unfold pathGE claimPathOrder pathLess
  by_cases hlen : p.length = q.length
  · rw [if_neg (by simp [hlen])]
    constructor
    · intro h
      refine Or.inr ⟨hlen, ?_⟩
      by_cases hpq : p = q
      · exact Or.inl hpq
      · refine Or.inr ?_
        rw [← lexBy_iff_lex ResourceIdLess ResourceIdLess_irrefl p q hlen]
        rcases lexBy_total_ne ResourceIdLess ResourceIdLess_total p q hlen hpq with hc | hc
        · exact hc
        · rw [hc] at h
          simp at h
    · intro h
      rcases h with h | ⟨_, h | h⟩
      · omega
      · rw [h]
        exact lexBy_irrefl ResourceIdLess q
      · rw [← lexBy_iff_lex ResourceIdLess ResourceIdLess_irrefl p q hlen] at h
        cases hc : lexBy ResourceIdLess q p with
        | false => rfl
        | true =>
          exfalso
          have htr := lexBy_trans ResourceIdLess ResourceIdLess_irrefl
            (fun u v w => ResourceIdLess_trans u v w) p q p h hc
          rw [lexBy_irrefl ResourceIdLess] at htr
          exact Bool.false_ne_true htr
  · rw [if_pos (by simp; omega)]
    constructor
    · intro h
      simp only [decide_eq_false_iff_not] at h
      exact Or.inl (by omega)
    · intro h
      rcases h with h | ⟨h, _⟩
      · simp only [decide_eq_false_iff_not]
        omega
      · exact absurd h hlen

/-- Weighted comparison used by the stable shortest-path choice: lower total
weight wins, and equal weights are decided by the path comparator, whose
equal-length case is the lexicographic ResourceId order. -/
def wLess (weight : List ResourceId → Int) (p q : List ResourceId) : Bool :=
  decide (weight p < weight q) || (decide (weight p = weight q) && pathLess p q)

theorem wLess_trans (weight : List ResourceId → Int) (p q r : List ResourceId)
    (h1 : wLess weight p q = true) (h2 : wLess weight q r = true) :
    wLess weight p r = true := by
  unfold wLess at *
  simp only [Bool.or_eq_true, Bool.and_eq_true, decide_eq_true_eq] at h1 h2 ⊢
  rcases h1 with h1 | ⟨h1, h1b⟩ <;> rcases h2 with h2 | ⟨h2, h2b⟩
  · exact Or.inl (by omega)
  · exact Or.inl (by omega)
  · exact Or.inl (by omega)
  · exact Or.inr ⟨by omega, pathLess_trans p q r h1b h2b⟩

theorem wLess_total_ne (weight : List ResourceId → Int) (p q : List ResourceId)
    (hne : p ≠ q) : wLess weight p q = true ∨ wLess weight q p = true := by
  unfold wLess
  simp only [Bool.or_eq_true, Bool.and_eq_true, decide_eq_true_eq]
  by_cases hw : weight p = weight q
  · rcases pathLess_total_ne p q hne with h | h
    · exact Or.inl (Or.inr ⟨hw, h⟩)
    · exact Or.inr (Or.inr ⟨hw.symm, h⟩)
  · rcases lt_or_gt_of_ne hw with h | h
    · exact Or.inl (Or.inl h)
    · exact Or.inr (Or.inl h)

/-- Modelled from the spec: graph.ShortestPathStable as called by expandEdge
(part_004 lines 88-93), specified in section 4.A as the weighted
shortest-path choice whose ties are broken by the ResourceId ordering.  The
temp graph is abstracted into the candidate source-to-target paths and their
total weights; the choice keeps the first candidate unless a strictly better
one appears. -/
def shortestPathStable (weight : List ResourceId → Int) :
    List (List ResourceId) → Option (List ResourceId)
  | [] => none
  | c :: rest =>
    some (rest.foldl (fun best q => if wLess weight q best then q else best) c)

theorem foldl_best_spec (weight : List ResourceId → Int) :
    ∀ (rest : List (List ResourceId)) (c : List ResourceId),
      (rest.foldl (fun best q => if wLess weight q best then q else best) c = c
        ∨ rest.foldl (fun best q => if wLess weight q best then q else best) c ∈ rest)
      ∧ ∀ q ∈ c :: rest,
          q ≠ rest.foldl (fun best q => if wLess weight q best then q else best) c →
          wLess weight
            (rest.foldl (fun best q => if wLess weight q best then q else best) c)
            q = true := by
  intro rest
  induction rest with
  | nil =>
    intro c
    refine ⟨Or.inl rfl, ?_⟩
    intro q hq hne
    rcases List.mem_singleton.mp hq with rfl
    exact absurd rfl hne
  | cons x rest ih =>
    intro c
    by_cases hxc : wLess weight x c = true
    · have hstep : (x :: rest).foldl
          (fun best q => if wLess weight q best then q else best) c
          = rest.foldl (fun best q => if wLess weight q best then q else best) x := by
        rw [List.foldl_cons, if_pos hxc]
      rcases ih x with ⟨hmem, hmin⟩
      rw [hstep]
      constructor
      · rcases hmem with h | h
        · exact Or.inr (by rw [h]; exact List.mem_cons_self x rest)
        · exact Or.inr (List.mem_cons_of_mem x h)
      · intro q hq hne
        rcases List.mem_cons.mp hq with rfl | hq2
        · by_cases hrx :
              rest.foldl (fun best q => if wLess weight q best then q else best) x = x
          · rw [hrx]
            exact hxc
          · exact wLess_trans weight _ x q
              (hmin x (List.mem_cons_self x rest) (fun h => hrx h.symm)) hxc
        · exact hmin q hq2 hne
    · have hstep : (x :: rest).foldl
          (fun best q => if wLess weight q best then q else best) c
          = rest.foldl (fun best q => if wLess weight q best then q else best) c := by
        rw [List.foldl_cons, if_neg hxc]
      rcases ih c with ⟨hmem, hmin⟩
      rw [hstep]
      constructor
      · rcases hmem with h | h
        · exact Or.inl h
        · exact Or.inr (List.mem_cons_of_mem x h)
      · intro q hq hne
        rcases List.mem_cons.mp hq with hqc | hq2
        · exact hmin q (by rw [hqc]; exact List.mem_cons_self c rest) hne
        · rcases List.mem_cons.mp hq2 with rfl | hq3
          · by_cases hqc : q = c
            · rw [hqc]
              have hcr : c ≠ rest.foldl
                  (fun best q => if wLess weight q best then q else best) c :=
                fun h => hne (hqc.trans h)
              exact hmin c (List.mem_cons_self c rest) hcr
            · have hcx : wLess weight c q = true := by
                rcases wLess_total_ne weight c q (fun h => hqc h.symm) with h | h
                · exact h
                · exact absurd h hxc
              by_cases hrc :
                  rest.foldl (fun best q => if wLess weight q best then q else best) c = c
              · rw [hrc]
                exact hcx
              · exact wLess_trans weight _ c q
                  (hmin c (List.mem_cons_self c rest) (fun h => hrc h.symm)) hcx
          · exact hmin q (List.mem_cons_of_mem c hq3) hne

/-- C5: expandEdge sorts the list of all source-to-target paths so that
shorter paths come first and equal-length paths are ordered lexicographically
over their node ids (the sorted permutation under this order is unique, so
the statement pins down the output of the Go sort regardless of algorithm);
and the final path is chosen by the stable weighted shortest-path choice,
which breaks every tie: the chosen path compares strictly before every other
candidate under the weight order with the ResourceId-lexicographic
tie-break, the ResourceId order being total. -/
theorem claim_C5 (paths cands : List (List ResourceId))
    (weight : List ResourceId → Int) (m : List ResourceId) :
    List.Sorted claimPathOrder (sortPaths paths)
    ∧ (sortPaths paths).Perm paths
    ∧ (∀ l, l.Perm paths → List.Sorted claimPathOrder l → l = sortPaths paths)
    ∧ (∀ a b : ResourceId, a = b ∨ ResourceIdLess a b = true ∨ ResourceIdLess b a = true)
    ∧ (shortestPathStable weight cands = some m →
        m ∈ cands ∧ ∀ q ∈ cands, q ≠ m → wLess weight m q = true) := by
  have hsorted : List.Sorted pathGE (sortPaths paths) :=
    List.sorted_insertionSort pathGE paths
  have hperm : (sortPaths paths).Perm paths :=
    List.perm_insertionSort pathGE paths
  refine ⟨?_, hperm, ?_, ?_, ?_⟩
  · exact hsorted.imp (fun h => (pathGE_iff _ _).mp h)
  · intro l hl hsl
    have hsl2 : List.Sorted pathGE l := hsl.imp (fun h => (pathGE_iff _ _).mpr h)
    exact List.eq_of_perm_of_sorted (hl.trans hperm.symm) hsl2 hsorted
  · intro a b
    by_cases h : a = b
    · exact Or.inl h
    · exact Or.inr (ResourceIdLess_total a b h)
  · intro hm
    rcases cands with _ | ⟨c, rest⟩
    · simp [shortestPathStable] at hm
    · have hmm : m = rest.foldl
          (fun best q => if wLess weight q best then q else best) c := by
        simpa [shortestPathStable] using hm.symm
      rcases foldl_best_spec weight rest c with ⟨hmem, hmin⟩
      subst hmm
      constructor
      · rcases hmem with h | h
        · rw [h]; exact List.mem_cons_self c rest
        · exact List.mem_cons_of_mem c h
      · intro q hq hne
        exact hmin q hq hne

/-- C5 witness: with two singleton candidate paths of equal weight, the
stable choice picks the lexicographically smaller one and compares strictly
before the other. -/
theorem claim_C5_witness :
    [ResourceId.mk "aws" "a" "" "1"]
        ∈ [[ResourceId.mk "aws" "a" "" "1"], [ResourceId.mk "aws" "b" "" "2"]]
    ∧ ∀ q ∈ [[ResourceId.mk "aws" "a" "" "1"], [ResourceId.mk "aws" "b" "" "2"]],
        q ≠ [ResourceId.mk "aws" "a" "" "1"] →
        wLess (fun _ => (0 : Int)) [ResourceId.mk "aws" "a" "" "1"] q = true :=
  (claim_C5 []
    [[ResourceId.mk "aws" "a" "" "1"], [ResourceId.mk "aws" "b" "" "2"]]
    (fun _ => (0 : Int)) [ResourceId.mk "aws" "a" "" "1"]).2.2.2.2 (by decide)

/-! ## Candidate weighting in expandPath (part_004 lines 288-459) -/

/-- Modelled from the spec: construct.ResourceId.Matches (not among the
sources): empty fields of the receiver act as wildcards, the others must be
equal. -/
def ridMatches (a b : ResourceId) : Bool :=
  (a.provider == "" || a.provider == b.provider)
  && (a.rtype == "" || a.rtype == b.rtype)
  && (a.rnamespace == "" || a.rnamespace == b.rnamespace)
  && (a.rname == "" || a.rname == b.rname)

/-- Embeds matchesNonBoundary (part_004 lines 567-575): the first
non-boundary path node whose typed id (name dropped) matches the candidate;
the Go -1 is rendered as none. -/
def matchesNonBoundary (id : ResourceId) (nonBoundary : List ResourceId) : Option Nat :=
  nonBoundary.findIdx? (fun node =>
    ridMatches (ResourceId.mk node.provider node.rtype node.rnamespace "") id)

/-- Candidate maps of expandPath: for each non-boundary index, the candidate
ids with their accumulated weights (the Go map rendered as an association
list). -/
abbrev CandMaps := List (List (ResourceId × Int))

/-- Embeds the initialization loop of expandPath (part_004 lines 314-333):
each non-boundary path node starts as its own candidate with weight 0,
overwritten to -1000 when it fails the validity checks. -/
def candidatesInit (nonBoundary : List ResourceId) (valid : ResourceId → Bool) :
    CandMaps :=
  nonBoundary.map (fun node => [(node, if valid node then 0 else (-1000 : Int))])

/-- Pointwise update of the element at one index. -/
def modifyIdx {α : Type} : List α → Nat → (α → α) → List α
  | [], _, _ => []
  | x :: xs, 0, f => f x :: xs
  | x :: xs, n + 1, f => x :: modifyIdx xs n f

/-- Key insertion of addCandidates: an absent candidate enters the map with
weight 0 (part_004 lines 356-358). -/
def ensureKey (m : List (ResourceId × Int)) (id : ResourceId) :
    List (ResourceId × Int) :=
  if m.any (fun kv => kv.1 == id) then m else m ++ [(id, 0)]

/-- Weight update of addCandidates: `candidates[matchIdx][id] += weight`
(part_004 line 372), rendered as an update of the first matching key of the
association list. -/
def addWeight : List (ResourceId × Int) → ResourceId → Int → List (ResourceId × Int)
  | [], _, _ => []
  | kv :: rest, id, w =>
    if kv.1 == id then (kv.1, kv.2 + w) :: rest else kv :: addWeight rest id w

/-- Embeds addCandidates (part_004 lines 338-374) for one walked graph
resource: nothing happens unless the id matches a non-boundary node and
passes the namespace-validity check; otherwise the candidate is ensured in
the matched index's map and its weight is incremented by the candidate
weight, which is replaced by -1000 when the validity checks fail. -/
def addCandidates (valid nsValid : ResourceId → Bool) (weightOf : ResourceId → Int)
    (nonBoundary : List ResourceId) (cands : CandMaps) (id : ResourceId) : CandMaps :=
  match matchesNonBoundary id nonBoundary with
  | none => cands
  | some i =>
    if nsValid id then
      modifyIdx cands i (fun m =>
        addWeight (ensureKey m id) id (if valid id then weightOf id else -1000))
    else cands

/-- Embeds the candidate-collection phase of expandPath (part_004 lines
306-398): initialize from the path's non-boundary nodes, then walk the
result graph and then the raw solution view, feeding every resource id to
addCandidates. -/
def expandPathCandidates (valid nsValid : ResourceId → Bool)
    (weightOf : ResourceId → Int)
    (nonBoundary resultIds rawIds : List ResourceId) : CandMaps :=
  let init := candidatesInit nonBoundary valid
  let afterResult :=
    resultIds.foldl (addCandidates valid nsValid weightOf nonBoundary) init
  rawIds.foldl (addCandidates valid nsValid weightOf nonBoundary) afterResult

/-- Accumulated weight of candidate `id` at non-boundary index `i`. -/
def lookupCand (cands : CandMaps) (i : Nat) (id : ResourceId) : Option Int :=
  (cands.get? i).bind (fun m =>
    (m.find? (fun kv => kv.1 == id)).map (fun kv => kv.2))

theorem modifyIdx_get_self {α : Type} :
    ∀ (l : List α) (i : Nat) (f : α → α),
      (modifyIdx l i f).get? i = (l.get? i).map f := by
  intro l
  induction l with
  | nil => intro i f; cases i <;> rfl
  | cons x xs ih =>
    intro i f
    cases i with
    | zero => rfl
    | succ n => exact ih n f

theorem modifyIdx_get_other {α : Type} :
    ∀ (l : List α) (i j : Nat) (f : α → α), j ≠ i →
      (modifyIdx l i f).get? j = l.get? j := by
  intro l
  induction l with
  | nil => intro i j f _; cases i <;> rfl
  | cons x xs ih =>
    intro i j f hji
    cases i with
    | zero =>
      cases j with
      | zero => exact absurd rfl hji
      | succ m => rfl
    | succ n =>
      cases j with
      | zero => rfl
      | succ m => exact ih n m f (fun h => hji (by rw [h]))

theorem modifyIdx_length {α : Type} :
    ∀ (l : List α) (i : Nat) (f : α → α), (modifyIdx l i f).length = l.length := by
  intro l
  induction l with
  | nil => intro i f; rfl
  | cons x xs ih =>
    intro i f
    cases i with
    | zero => rfl
    | succ n => simp [modifyIdx, ih n f]

theorem find?_append_some {α : Type} (p : α → Bool) {l1 : List α} (l2 : List α)
    {x : α} (h : l1.find? p = some x) : (l1 ++ l2).find? p = some x := by
  induction l1 with
  | nil => simp [List.find?] at h
  | cons a as ih =>
    rw [List.cons_append]
    by_cases hp : p a = true
    · rw [List.find?_cons_of_pos _ hp] at h
      rw [List.find?_cons_of_pos _ hp]
      exact h
    · rw [List.find?_cons_of_neg _ hp] at h
      rw [List.find?_cons_of_neg _ hp]
      exact ih h

theorem find?_append_none {α : Type} (p : α → Bool) {l1 : List α} (l2 : List α)
    (h : l1.find? p = none) : (l1 ++ l2).find? p = l2.find? p := by
  induction l1 with
  | nil => rfl
  | cons a as ih =>
    rw [List.cons_append]
    by_cases hp : p a = true
    · rw [List.find?_cons_of_pos _ hp] at h
      exact absurd h (by simp)
    · rw [List.find?_cons_of_neg _ hp] at h
      rw [List.find?_cons_of_neg _ hp]
      exact ih h

theorem find?_cons_pos {α : Type} (p : α → Bool) (a : α) (l : List α)
    (h : p a = true) : (a :: l).find? p = some a := by
  simp [List.find?_cons, h]

theorem find?_cons_neg {α : Type} (p : α → Bool) (a : α) (l : List α)
    (h : p a = false) : (a :: l).find? p = l.find? p := by
  simp [List.find?_cons, h]

theorem find?_addWeight_self (m : List (ResourceId × Int)) (id : ResourceId) (w : Int) :
    (addWeight m id w).find? (fun kv => kv.1 == id)
      = (m.find? (fun kv => kv.1 == id)).map (fun kv => (kv.1, kv.2 + w)) := by
  induction m with
  | nil => rfl
  | cons kv rest ih =>
    unfold addWeight
    by_cases h : (kv.1 == id) = true
    · rw [if_pos h]
      rw [find?_cons_pos (fun kv => kv.1 == id) (kv.1, kv.2 + w) rest h,
        find?_cons_pos (fun kv => kv.1 == id) kv rest h]
      rfl
    · have hf : (kv.1 == id) = false := by
        cases hb : (kv.1 == id)
        · rfl
        · exact absurd hb h
      rw [if_neg h]
      rw [find?_cons_neg (fun kv => kv.1 == id) kv (addWeight rest id w) hf,
        find?_cons_neg (fun kv => kv.1 == id) kv rest hf]
      exact ih

theorem find?_addWeight_other (m : List (ResourceId × Int)) (id id2 : ResourceId)
    (w : Int) (hne : id2 ≠ id) :
    (addWeight m id2 w).find? (fun kv => kv.1 == id)
      = m.find? (fun kv => kv.1 == id) := by
  induction m with
  | nil => rfl
  | cons kv rest ih =>
    unfold addWeight
    by_cases h : (kv.1 == id2) = true
    · rw [if_pos h]
      have hkv : (kv.1 == id) = false := by
        rw [beq_iff_eq] at h
        simp [beq_eq_false_iff_ne, h, hne]
      rw [find?_cons_neg (fun kv => kv.1 == id) (kv.1, kv.2 + w) rest hkv,
        find?_cons_neg (fun kv => kv.1 == id) kv rest hkv]
    · rw [if_neg h]
      by_cases hkv : (kv.1 == id) = true
      · rw [find?_cons_pos (fun kv => kv.1 == id) kv (addWeight rest id2 w) hkv,
          find?_cons_pos (fun kv => kv.1 == id) kv rest hkv]
      · have hf : (kv.1 == id) = false := by
          cases hb : (kv.1 == id)
          · rfl
          · exact absurd hb hkv
        rw [find?_cons_neg (fun kv => kv.1 == id) kv (addWeight rest id2 w) hf,
          find?_cons_neg (fun kv => kv.1 == id) kv rest hf]
        exact ih

theorem ensureKey_present (m : List (ResourceId × Int)) (id : ResourceId)
    {kv : ResourceId × Int} (h : m.find? (fun kv => kv.1 == id) = some kv) :
    ensureKey m id = m := by
  have hmem := List.mem_of_find?_eq_some h
  have hp := List.find?_some h
  unfold ensureKey
  rw [if_pos (List.any_eq_true.mpr ⟨kv, hmem, hp⟩)]

theorem find?_ensureKey_absent (m : List (ResourceId × Int)) (id : ResourceId)
    (h : m.find? (fun kv => kv.1 == id) = none) :
    (ensureKey m id).find? (fun kv => kv.1 == id) = some (id, 0) := by
  unfold ensureKey
  rw [if_neg]
  · rw [find?_append_none _ _ h]
    simp [List.find?]
  · intro hany
    rcases List.any_eq_true.mp hany with ⟨kv, hkv, hpkv⟩
    rw [List.find?_eq_none] at h
    exact absurd hpkv (by simpa using h kv hkv)

theorem lookup_addCandidates_self (valid nsValid : ResourceId → Bool)
    (weightOf : ResourceId → Int) (nonBoundary : List ResourceId)
    (id : ResourceId) (i : Nat) (cands : CandMaps)
    (hvalid : valid id = false) (hns : nsValid id = true)
    (hmatch : matchesNonBoundary id nonBoundary = some i)
    (hi : i < cands.length) :
    lookupCand (addCandidates valid nsValid weightOf nonBoundary cands id) i id
      = some ((lookupCand cands i id).getD 0 + (-1000)) := by
  have hd : (if valid id = true then weightOf id else -1000) = (-1000 : Int) := by
    rw [hvalid]
    rfl
  simp only [addCandidates, hmatch, hd]
  rw [if_pos hns]
  unfold lookupCand
  rw [modifyIdx_get_self]
  obtain ⟨m, hm⟩ : ∃ m, cands.get? i = some m := by
    rw [List.get?_eq_get hi]
    exact ⟨_, rfl⟩
  rw [hm]
  simp only [Option.map_some', Option.some_bind]
  rw [find?_addWeight_self]
  cases hf : m.find? (fun kv => kv.1 == id) with
  | some kv =>
    rw [ensureKey_present m id hf, hf]
    simp
  | none =>
    rw [find?_ensureKey_absent m id hf]
    simp

theorem lookup_addCandidates_other (valid nsValid : ResourceId → Bool)
    (weightOf : ResourceId → Int) (nonBoundary : List ResourceId)
    (id id2 : ResourceId) (i : Nat) (cands : CandMaps) (hne : id2 ≠ id) :
    lookupCand (addCandidates valid nsValid weightOf nonBoundary cands id2) i id
      = lookupCand cands i id := by
  cases hmatch : matchesNonBoundary id2 nonBoundary with
  | none => simp only [addCandidates, hmatch]
  | some j =>
    simp only [addCandidates, hmatch]
    by_cases hns : nsValid id2 = true
    · rw [if_pos hns]
      unfold lookupCand
      by_cases hij : j = i
      · subst hij
        rw [modifyIdx_get_self]
        cases hm : cands.get? j with
        | none => rfl
        | some m =>
          simp only [Option.map_some', Option.some_bind]
          rw [find?_addWeight_other _ _ _ _ hne]
          unfold ensureKey
          by_cases hany : m.any (fun kv => kv.1 == id2) = true
          · rw [if_pos hany]
          · rw [if_neg hany]
            cases hf : m.find? (fun kv => kv.1 == id) with
            | some kv => rw [find?_append_some _ _ hf]
            | none =>
              have hb : (id2 == id) = false := beq_eq_false_iff_ne.mpr hne
              rw [find?_append_none _ _ hf]
              simp [List.find?_cons, hb]
      · rw [modifyIdx_get_other cands j i _ (fun h => hij h.symm)]
    · rw [if_neg hns]

theorem candidatesInit_length (nonBoundary : List ResourceId)
    (valid : ResourceId → Bool) :
    (candidatesInit nonBoundary valid).length = nonBoundary.length := by
  simp [candidatesInit]

theorem addCandidates_length (valid nsValid : ResourceId → Bool)
    (weightOf : ResourceId → Int) (nonBoundary : List ResourceId)
    (cands : CandMaps) (id : ResourceId) :
    (addCandidates valid nsValid weightOf nonBoundary cands id).length
      = cands.length := by
  cases hmatch : matchesNonBoundary id nonBoundary with
  | none => simp only [addCandidates, hmatch]
  | some i =>
    simp only [addCandidates, hmatch]
    by_cases hns : nsValid id = true
    · rw [if_pos hns]
      exact modifyIdx_length _ _ _
    · rw [if_neg hns]

theorem foldl_addCandidates_length (valid nsValid : ResourceId → Bool)
    (weightOf : ResourceId → Int) (nonBoundary : List ResourceId) :
    ∀ (ids : List ResourceId) (cands : CandMaps),
      (ids.foldl (addCandidates valid nsValid weightOf nonBoundary) cands).length
        = cands.length := by
  intro ids
  induction ids with
  | nil => intro cands; rfl
  | cons x xs ih =>
    intro cands
    rw [List.foldl_cons, ih, addCandidates_length]

theorem lookup_foldl_addCandidates (valid nsValid : ResourceId → Bool)
    (weightOf : ResourceId → Int) (nonBoundary : List ResourceId)
    (id : ResourceId) (i : Nat)
    (hvalid : valid id = false) (hns : nsValid id = true)
    (hmatch : matchesNonBoundary id nonBoundary = some i) :
    ∀ (ids : List ResourceId) (cands : CandMaps), i < cands.length →
      lookupCand (ids.foldl (addCandidates valid nsValid weightOf nonBoundary) cands) i id
        = if ids.count id = 0 then lookupCand cands i id
          else some ((lookupCand cands i id).getD 0 + (-1000) * ids.count id) := by
  intro ids
  induction ids with
  | nil =>
    intro cands hi
    simp
  | cons x xs ih =>
    intro cands hi
    rw [List.foldl_cons]
    by_cases hx : x = id
    · subst hx
      have hi2 : i < (addCandidates valid nsValid weightOf nonBoundary cands x).length := by
        rw [addCandidates_length]
        exact hi
      have hstep :=
        lookup_addCandidates_self valid nsValid weightOf nonBoundary x i cands
          hvalid hns hmatch hi
      rw [ih _ hi2, hstep, List.count_cons_self,
        if_neg (Nat.succ_ne_zero (xs.count x))]
      by_cases hn : xs.count x = 0
      · rw [if_pos hn]
        congr 1
        omega
      · rw [if_neg hn]
        simp only [Option.getD_some]
        congr 1
        omega
    · have hi2 : i < (addCandidates valid nsValid weightOf nonBoundary cands x).length := by
        rw [addCandidates_length]
        exact hi
      rw [ih _ hi2,
        lookup_addCandidates_other valid nsValid weightOf nonBoundary id x i cands hx,
        List.count_cons_of_ne (fun h => hx h.symm)]

theorem lookup_candidatesInit (nonBoundary : List ResourceId)
    (valid : ResourceId → Bool) (i : Nat) (id nbi : ResourceId)
    (hget : nonBoundary.get? i = some nbi) :
    lookupCand (candidatesInit nonBoundary valid) i id
      = if nbi = id then some (if valid id = true then (0 : Int) else -1000)
        else none := by
  unfold lookupCand candidatesInit
  rw [List.get?_map, hget]
  simp only [Option.map_some', Option.some_bind]
  by_cases h : nbi = id
  · subst h
    simp [List.find?_cons]
  · have hb : (nbi == id) = false := beq_eq_false_iff_ne.mpr h
    simp [List.find?_cons, hb, h]

/-- C6 counterexample: with a single non-boundary path node of type
aws:subnet named p, a distinct invalid candidate x of the same type found in
both the result graph and the raw view ends with accumulated weight -2000,
not the -1000 the spec announces. -/
theorem claim_C6_counterexample :
    lookupCand (expandPathCandidates (fun _ => false) (fun _ => true) (fun _ => 7)
        [ResourceId.mk "aws" "subnet" "" "p"]
        [ResourceId.mk "aws" "subnet" "" "x"]
        [ResourceId.mk "aws" "subnet" "" "x"]) 0
        (ResourceId.mk "aws" "subnet" "" "x")
      = some (-2000) ∧ ((-2000 : Int) ≠ -1000) := by
  constructor
  · rfl
  · decide

/-- C6 (amended): in expandPath's candidate collection, a graph resource
that matches a non-boundary path node, passes the namespace check, but
fails the validity check is indeed penalized, but its weight is
accumulated with `+=`, not set: every occurrence across the walked result
graph and raw view adds -1000, on top of a -1000 initialization when the
candidate is the path node itself, so the stored weight is -1000 times the
number of contributions; in particular it is always at most -1000. -/
theorem claim_C6 (valid nsValid : ResourceId → Bool) (weightOf : ResourceId → Int)
    (nonBoundary resultIds rawIds : List ResourceId) (id nbi : ResourceId) (i : Nat)
    (hvalid : valid id = false) (hns : nsValid id = true)
    (hmatch : matchesNonBoundary id nonBoundary = some i)
    (hget : nonBoundary.get? i = some nbi)
    (hocc : 0 < resultIds.count id + rawIds.count id) :
    lookupCand (expandPathCandidates valid nsValid weightOf nonBoundary resultIds rawIds)
        i id
      = some ((if nbi = id then (-1000 : Int) else 0)
          + (-1000) * (resultIds.count id + rawIds.count id))
    ∧ ∀ w : Int,
        lookupCand (expandPathCandidates valid nsValid weightOf nonBoundary resultIds
          rawIds) i id = some w → w ≤ -1000 := by
  have hi : i < nonBoundary.length := by
    by_contra hcon
    rw [List.get?_eq_none.mpr (Nat.le_of_not_lt hcon)] at hget
    exact Option.noConfusion hget
  have hlen1 : i < (candidatesInit nonBoundary valid).length := by
    rw [candidatesInit_length]
    exact hi
  have hlen2 : i < (resultIds.foldl (addCandidates valid nsValid weightOf nonBoundary)
      (candidatesInit nonBoundary valid)).length := by
    rw [foldl_addCandidates_length]
    exact hlen1
  have hinit : lookupCand (candidatesInit nonBoundary valid) i id
      = if nbi = id then some (-1000 : Int) else none := by
    rw [lookup_candidatesInit nonBoundary valid i id nbi hget, hvalid]
    by_cases h : nbi = id
    · rw [if_pos h, if_pos h]
      rfl
    · rw [if_neg h, if_neg h]
  have h1 := lookup_foldl_addCandidates valid nsValid weightOf nonBoundary id i
    hvalid hns hmatch resultIds (candidatesInit nonBoundary valid) hlen1
  have h2 := lookup_foldl_addCandidates valid nsValid weightOf nonBoundary id i
    hvalid hns hmatch rawIds
    (resultIds.foldl (addCandidates valid nsValid weightOf nonBoundary)
      (candidatesInit nonBoundary valid)) hlen2
  have hmain : lookupCand
      (expandPathCandidates valid nsValid weightOf nonBoundary resultIds rawIds) i id
      = some ((if nbi = id then (-1000 : Int) else 0)
          + (-1000) * (resultIds.count id + rawIds.count id)) := by
    simp only [expandPathCandidates]
    rw [h2, h1, hinit]
    by_cases hg : nbi = id
    · rw [if_pos hg, if_pos hg]
      by_cases hn1 : resultIds.count id = 0
      · rw [if_pos hn1]
        have hn2 : ¬rawIds.count id = 0 := by omega
        rw [if_neg hn2]
        simp only [Option.getD_some]
        congr 1
        omega
      · rw [if_neg hn1]
        by_cases hn2 : rawIds.count id = 0
        · rw [if_pos hn2]
          simp only [Option.getD_some]
          congr 1
          omega
        · rw [if_neg hn2]
          simp only [Option.getD_some]
          congr 1
          omega
    · rw [if_neg hg, if_neg hg]
      by_cases hn1 : resultIds.count id = 0
      · rw [if_pos hn1]
        have hn2 : ¬rawIds.count id = 0 := by omega
        rw [if_neg hn2]
        simp only [Option.getD_none]
        congr 1
        omega
      · rw [if_neg hn1]
        by_cases hn2 : rawIds.count id = 0
        · rw [if_pos hn2]
          simp only [Option.getD_none, Option.getD_some]
          congr 1
          omega
        · rw [if_neg hn2]
          simp only [Option.getD_none, Option.getD_some]
          congr 1
          omega
  refine ⟨hmain, ?_⟩
  intro w hw
  rw [hmain] at hw
  have hval := Option.some.inj hw
  by_cases hg : nbi = id
  · rw [if_pos hg] at hval
    omega
  · rw [if_neg hg] at hval
    omega

/-- C6 witness: a concrete invalid candidate occurring once in the walked
result graph, with the single non-boundary node distinct from it, ends at
weight 0 + -1000 * 1 and every stored value is at most -1000. -/
theorem claim_C6_witness :
    lookupCand (expandPathCandidates (fun _ => false) (fun _ => true) (fun _ => 7)
        [ResourceId.mk "aws" "subnet" "" "p"]
        [ResourceId.mk "aws" "subnet" "" "x"] []) 0
        (ResourceId.mk "aws" "subnet" "" "x")
      = some ((if ResourceId.mk "aws" "subnet" "" "p" = ResourceId.mk "aws" "subnet" "" "x"
            then (-1000 : Int) else 0)
          + (-1000) * (([ResourceId.mk "aws" "subnet" "" "x"].count
              (ResourceId.mk "aws" "subnet" "" "x"))
            + (([] : List ResourceId).count (ResourceId.mk "aws" "subnet" "" "x"))))
    ∧ ∀ w : Int,
        lookupCand (expandPathCandidates (fun _ => false) (fun _ => true) (fun _ => 7)
          [ResourceId.mk "aws" "subnet" "" "p"]
          [ResourceId.mk "aws" "subnet" "" "x"] []) 0
          (ResourceId.mk "aws" "subnet" "" "x") = some w → w ≤ -1000 :=
  claim_C6 (fun _ => false) (fun _ => true) (fun _ => 7)
    [ResourceId.mk "aws" "subnet" "" "p"]
    [ResourceId.mk "aws" "subnet" "" "x"] []
    (ResourceId.mk "aws" "subnet" "" "x") (ResourceId.mk "aws" "subnet" "" "p") 0
    rfl rfl (by decide) rfl (by decide)

end Klotho
